import Mathlib

/-!
Shallow embedding of the blocked triangular-inversion engine of
`library/src/blas3/trtri_trsm.hpp` (rocBLAS): the device kernel
`rocblas_trtri_trsm_kernel` and the driver `rocblas_trtri_trsm_template`.

Device memory is modelled as flat buffers of rationals (`ℕ → ℚ`), addressed
column-major exactly as the source computes its offsets.  Device helpers whose
bodies are outside the excerpt (`rocblas_custom_trtri_device`,
`rocblas_trtri_fill`, `rocblas_trtri_gemm_block`,
`rocblas_internal_trtri_template`, and the launch-checking macros) are
modelled from the specification; each such definition says so in its doc
comment.  Statuses of the asynchronous sub-steps are supplied by an
environment `env : ℕ → rocblas_status` indexed by issue slot.
-/

namespace RocblasTrtriTrsm

/-- Execution status returned by rocblas routines: success, or an error code
propagated from a failed multiply or kernel launch. -/
inductive rocblas_status where
  | success : rocblas_status
  | failure : ℕ → rocblas_status
deriving DecidableEq, Repr

/-- Which triangular half of the matrix is referenced. -/
inductive rocblas_fill where
  | lower : rocblas_fill
  | upper : rocblas_fill
deriving DecidableEq, Repr

/-- Whether the diagonal of the triangular matrix is taken to be all ones
without being read. -/
inductive rocblas_diagonal where
  | non_unit : rocblas_diagonal
  | unit : rocblas_diagonal
deriving DecidableEq, Repr

/-- Device memory observed by the routine: the three flat buffers it receives
(source matrix `A`, output `invA`, scratch `C_tmp`). -/
structure GpuState where
  a : ℕ → ℚ
  invA : ℕ → ℚ
  ctmp : ℕ → ℚ

/-- Trace of the device sub-steps the driver issues, in order. -/
inductive TrsmOp where
  | kernelLaunch : ℕ → ℕ → TrsmOp
  | fillLaunch : ℕ → ℕ → ℕ → TrsmOp
  | gemmCall : ℕ → ℕ → ℕ → Bool → ℕ → ℕ → ℕ → ℕ → ℕ → TrsmOp
  | trtriCall : ℕ → ℕ → ℕ → ℕ → TrsmOp
deriving DecidableEq, Repr

/-- Membership test for a two-dimensional store: does the flat address `addr`
fall on an element (row `i`, column `j`, column-major with leading dimension
`ld`) of the `nn`-row, `mm`-column region based at `base`, restricted to the
positions where `dom i j` holds. -/
def regionMemb (base ld nn mm : ℕ) (dom : ℕ → ℕ → Bool) (addr : ℕ) : Bool :=
  decide (∃ j ∈ Finset.range mm, ∃ i ∈ Finset.range nn,
    dom i j = true ∧ addr = base + j * ld + i)

/-- Simultaneous store of `count` two-dimensional regions into a flat buffer:
region `k` is based at `base k` and element (i, j) receives `v k i j`.  The
regions written by one device step are pairwise disjoint for the leading
dimensions and strides the driver uses (each work unit owns a disjoint slice
of the output); on overlapping regions the least `k` wins, fixing an arbitrary
but deterministic resolution. -/
def writeRegion (buf : ℕ → ℚ) (count : ℕ) (base : ℕ → ℕ) (ld nn mm : ℕ)
    (dom : ℕ → ℕ → Bool) (v : ℕ → ℕ → ℕ → ℚ) : ℕ → ℚ :=
  fun addr =>
    match (List.range count).find? (fun k => regionMemb (base k) ld nn mm dom addr) with
    | some k => v k ((addr - base k) % ld) ((addr - base k) / ld)
    | none => buf addr

/-- Reciprocal of a diagonal entry: a unit diagonal is taken as one without
reading the entry. -/
def rat_dinv (diag : rocblas_diagonal) (x : ℚ) : ℚ :=
  match diag with
  | .unit => 1
  | .non_unit => x⁻¹

/-- Modelled from the spec (Diagonal-Block Inverter, section 4.1): fuel-bounded
forward/backward substitution producing the exact inverse of a triangular
matrix read through `a`; with fuel exceeding the row/column span the value is
exact.  Entries on the opposite half are zero. -/
def triInvEntry (uplo : rocblas_fill) (diag : rocblas_diagonal) (a : ℕ → ℕ → ℚ) :
    ℕ → ℕ → ℕ → ℚ
  | 0, _, _ => 0
  | fuel + 1, i, j =>
    match uplo with
    | .lower =>
      if i < j then 0
      else if i = j then rat_dinv diag (a i i)
      else -(rat_dinv diag (a i i))
            * ∑ k in Finset.Ico j i, a i k * triInvEntry uplo diag a fuel k j
    | .upper =>
      if j < i then 0
      else if i = j then rat_dinv diag (a i i)
      else -(rat_dinv diag (a i i))
            * ∑ k in Finset.Ioc i j, a i k * triInvEntry uplo diag a fuel k j

/-- Modelled from the spec: exact triangular inverse of the `k`-by-`k` block
read through `a`, zero on the opposite half.  This is the contract of both the
missing device function `rocblas_custom_trtri_device` (used on the 2·IB
diagonal blocks) and the missing `rocblas_internal_trtri_template` (used on
the remainder block). -/
def tri_inverse (uplo : rocblas_fill) (diag : rocblas_diagonal) (k : ℕ)
    (a : ℕ → ℕ → ℚ) (i j : ℕ) : ℚ :=
  triInvEntry uplo diag a (k + 1) i j

/-- Effect of one launch of `rocblas_trtri_trsm_kernel` on `invA`, transcribing
the kernel's offset computation: hip block (bx, b), with `bx < gridX` and batch
index `b < gridY`, reads the diagonal block of `A` at offset
`(2*bx)*(IB*lda+IB) + offset_Ain` (batch stride `strideA`) and writes its
inverse at offset `((2*bx)/IBD)*(NB*NB) + ((2*bx)%IBD)*(IB*NB+IB) + offset_invAin`
(leading dimension `NB`, batch stride `strideInvA`).  The driver's launch
geometry makes each hip block cover a 2·IB-by-2·IB diagonal block; the inverse
values come from the spec-modelled `tri_inverse`. -/
def stage_trtri_kernel (NB IB IBD : ℕ) (uplo : rocblas_fill) (diag : rocblas_diagonal)
    (st : GpuState) (offset_Ain lda strideA offset_invAin strideInvA : ℕ)
    (gridX gridY : ℕ) : GpuState :=
  { st with
    invA :=
      writeRegion st.invA (gridY * gridX)
        (fun k =>
          (k / gridX) * strideInvA
            + ((2 * (k % gridX)) / IBD) * (NB * NB)
            + ((2 * (k % gridX)) % IBD) * (IB * NB + IB) + offset_invAin)
        NB (2 * IB) (2 * IB) (fun _ _ => true)
        (fun k i j =>
          tri_inverse uplo diag (2 * IB)
            (fun r c =>
              st.a ((k / gridX) * strideA + (2 * (k % gridX)) * (IB * lda + IB)
                    + offset_Ain + c * lda + r))
            i j) }

/-- Modelled from the spec (Padding/Fill Kernel, section 4.2): one launch of
the missing `rocblas_trtri_fill` writes zero at every entry of the given
strictly triangular half (`filluplo = upper`: strictly above the diagonal) of
the `nn`-by-`nn` leading block of each of `subCount` tiles spaced `subStride`
apart, for each batch entry (batch stride `strideInvA`), leading dimension
`ld`. -/
def stage_fill (filluplo : rocblas_fill) (nn ld subStride : ℕ)
    (st : GpuState) (offset strideInvA : ℕ) (subCount batch : ℕ) : GpuState :=
  { st with
    invA :=
      writeRegion st.invA (batch * subCount)
        (fun k => (k / subCount) * strideInvA + (k % subCount) * subStride + offset)
        ld nn nn
        (fun i j => match filluplo with
          | .upper => decide (i < j)
          | .lower => decide (j < i))
        (fun _ _ _ => 0) }

/-- Value written by the combination step: the signed product chain
`-(invA2blk · ablk · invA1blk)`, composing the two multiplies of the helper
(first `ablk · invA1blk` into scratch, then negated product with `invA2blk`). -/
def gemm_dest_val (m n : ℕ) (invA2blk ablk invA1blk : ℕ → ℕ → ℚ) (i j : ℕ) : ℚ :=
  -(∑ l in Finset.range m, invA2blk i l
      * (∑ p in Finset.range n, ablk l p * invA1blk p j))

/-- Modelled from the spec (GEMM-Block Helper, section 4.4): the missing
`rocblas_trtri_gemm_block` issues two strided, batched matrix multiplies over
all `subBlocks` sub-blocks (sub-strides `subStride*`) and all `batch` batch
entries (strides `stride*`): the first writes the product of the off-diagonal
source block of `A` at `offA` with the inverse block at `offInvA1` into the
scratch buffer at `offC`; the second writes the negated product of the inverse
block at `offInvA2` with that intermediate into `invA` at `offInvA3`.  Both
multiplies read the blocks as they stand before the helper call (the
destination blocks are disjoint from the operand blocks at the offsets the
driver computes).  A failing first multiply suppresses the second; the helper
returns the first failing status, statuses being supplied as `env1`, `env2`. -/
def rocblas_trtri_gemm_block (env1 env2 : rocblas_status) (m n : ℕ)
    (st : GpuState) (lda strideA subStrideA : ℕ)
    (ldInvA strideInvA subStrideInvA : ℕ)
    (ldC strideC subStrideC : ℕ)
    (batch subBlocks : ℕ)
    (offA offInvA1 offInvA2 offInvA3 offC : ℕ) :
    rocblas_status × GpuState × List TrsmOp :=
  let ablk := fun (k r c : ℕ) =>
    st.a ((k / subBlocks) * strideA + (k % subBlocks) * subStrideA + offA + c * lda + r)
  let invA1blk := fun (k r c : ℕ) =>
    st.invA ((k / subBlocks) * strideInvA + (k % subBlocks) * subStrideInvA + offInvA1
             + c * ldInvA + r)
  let invA2blk := fun (k r c : ℕ) =>
    st.invA ((k / subBlocks) * strideInvA + (k % subBlocks) * subStrideInvA + offInvA2
             + c * ldInvA + r)
  let st1 := { st with
    ctmp :=
      writeRegion st.ctmp (batch * subBlocks)
        (fun k => (k / subBlocks) * strideC + (k % subBlocks) * subStrideC + offC)
        ldC m n (fun _ _ => true)
        (fun k i j => ∑ p in Finset.range n, ablk k i p * invA1blk k p j) }
  let op1 : TrsmOp := .gemmCall m n n false offA offInvA1 offC subBlocks batch
  if env1 ≠ rocblas_status.success then (env1, st1, [op1])
  else
    let st2 := { st1 with
      invA :=
        writeRegion st1.invA (batch * subBlocks)
          (fun k => (k / subBlocks) * strideInvA + (k % subBlocks) * subStrideInvA + offInvA3)
          ldInvA m n (fun _ _ => true)
          (fun k i j => gemm_dest_val m n (invA2blk k) (ablk k) (invA1blk k) i j) }
    (env2, st2, [op1, .gemmCall m n m true offInvA2 offC offInvA3 subBlocks batch])

/-- Modelled from the spec: the missing `rocblas_internal_trtri_template` (and
its batched variant, which the driver calls with identical size, offset and
batch arguments) inverts the `nn`-by-`nn` triangular block of `A` at offset
`offA`, writing the inverse values over the active triangular half of the
destination block of `invA` at offset `offInvA` (leading dimension `ldInvA`),
for each of `batch` batch entries; its status is supplied as `env9`. -/
def rocblas_internal_trtri_template (env9 : rocblas_status) (uplo : rocblas_fill)
    (diag : rocblas_diagonal) (nn : ℕ) (st : GpuState)
    (offA lda strideA : ℕ) (offInvA ldInvA strideInvA : ℕ) (batch : ℕ) :
    rocblas_status × GpuState × List TrsmOp :=
  (env9,
   { st with
     invA :=
      writeRegion st.invA batch (fun b => b * strideInvA + offInvA) ldInvA nn nn
        (fun i j => match uplo with
          | .lower => decide (j ≤ i)
          | .upper => decide (i ≤ j))
        (fun b i j =>
          tri_inverse uplo diag nn
            (fun r c => st.a (b * strideA + offA + c * lda + r)) i j) },
   [TrsmOp.trtriCall nn offA offInvA batch])

/-- Remainder handling of `rocblas_trtri_trsm_template` (source lines 309-378):
if `n` is not divisible by `NB`, the trailing `rem = n - sub_blocks*NB`
rows/columns are zero-filled on the opposite half and inverted by a direct
trtri call into the final partial tile, batch count unchanged.  The fill
launch is checked by the launch macro (modelled from the spec as propagating a
failing status, slot 8); the trtri status (slot 9) is checked explicitly in
the source. -/
def trsm_remainder (NB : ℕ) (env : ℕ → rocblas_status)
    (uplo : rocblas_fill) (diag : rocblas_diagonal) (n : ℕ)
    (offset_Ain lda strideA offset_invAin strideInvA : ℕ) (batch_count : ℕ)
    (stIn : GpuState) (opsIn : List TrsmOp) :
    rocblas_status × GpuState × List TrsmOp :=
  let sub_blocks := n / NB
  let rem := n - sub_blocks * NB
  if rem = 0 then (.success, stIn, opsIn)
  else
    let st6 := stage_fill
      (match uplo with | .lower => .upper | .upper => .lower)
      rem NB 0 stIn (sub_blocks * NB * NB + offset_invAin) strideInvA 1 batch_count
    let ops6 := opsIn ++ [TrsmOp.fillLaunch rem 1 batch_count]
    if env 8 ≠ rocblas_status.success then (env 8, st6, ops6)
    else
      let r := rocblas_internal_trtri_template (env 9) uplo diag rem st6
        (sub_blocks * NB * lda + sub_blocks * NB + offset_Ain) lda strideA
        (sub_blocks * NB * NB + offset_invAin) NB strideInvA batch_count
      if r.1 ≠ rocblas_status.success then (r.1, r.2.1, ops6 ++ r.2.2)
      else (.success, r.2.1, ops6 ++ r.2.2)

/-- Block size passed to the combination helper at level 0, 1, 2: the driver's
three calls pass IB*2, IB*2 and JB = IB*4 (source lines 221, 252, 282). -/
def trsm_gemm_size (IB : ℕ) : ℕ → ℕ
  | 0 => IB * 2
  | 1 => IB * 2
  | _ => IB * 4

/-- Off-diagonal source offset inside the A tile for each combination level,
transcribing the driver's `offset_A` assignments (source lines 216, 246, 277;
`JB` spelled as `IB * 4`). -/
def trsm_gemm_offset_A (uplo : rocblas_fill) (IB lda : ℕ) : ℕ → ℕ
  | 0 => if uplo = rocblas_fill.lower then IB * 2 else IB * 2 * lda
  | 1 => if uplo = rocblas_fill.lower then IB * 4 * lda + IB * 6 else IB * 6 * lda + IB * 4
  | _ => if uplo = rocblas_fill.lower then IB * 4 else IB * 4 * lda

/-- First inverse-operand offset inside the invA tile for each combination
level, transcribing the driver's `offset_invA1` assignments (source lines 217,
248, 278). -/
def trsm_gemm_offset_invA1 (uplo : rocblas_fill) (IB NB : ℕ) : ℕ → ℕ
  | 0 => if uplo = rocblas_fill.lower then 0 else IB * 2 * NB + IB * 2
  | 1 => if uplo = rocblas_fill.lower then IB * 4 * NB + IB * 4 else IB * 6 * NB + IB * 6
  | _ => if uplo = rocblas_fill.lower then 0 else IB * 4 * NB + IB * 4

/-- Second inverse-operand offset inside the invA tile for each combination
level, transcribing the driver's `offset_invA2` assignments (source lines 218,
249, 279). -/
def trsm_gemm_offset_invA2 (uplo : rocblas_fill) (IB NB : ℕ) : ℕ → ℕ
  | 0 => if uplo = rocblas_fill.lower then IB * 2 * NB + IB * 2 else 0
  | 1 => if uplo = rocblas_fill.lower then IB * 6 * NB + IB * 6 else IB * 4 * NB + IB * 4
  | _ => if uplo = rocblas_fill.lower then IB * 4 * NB + IB * 4 else 0

/-- Destination offset inside the invA tile for each combination level,
transcribing the driver's `offset_invA3` assignments (source lines 219, 250,
280). -/
def trsm_gemm_offset_invA3 (uplo : rocblas_fill) (IB NB : ℕ) : ℕ → ℕ
  | 0 => if uplo = rocblas_fill.lower then IB * 2 else IB * 2 * NB
  | 1 => if uplo = rocblas_fill.lower then IB * 4 * NB + IB * 6 else IB * 6 * NB + IB * 4
  | _ => if uplo = rocblas_fill.lower then IB * 4 else IB * 4 * NB

/-- Transcription of `rocblas_trtri_trsm_template` (source lines 110-381).
Quick return on `n = 0`; for `sub_blocks = n / NB` full tiles: one launch of
the diagonal-inversion kernel (status slot 0, checked by the launch macro),
one zero-fill launch over the opposite half of each NB tile (slot 1, checked),
then three `rocblas_trtri_gemm_block` calls with the offsets computed per
`uplo` (slots 2-7); the statuses returned by the three helper calls are
discarded, exactly as in the source (their return values are not assigned).
Finally the remainder block is handled.  The `BATCHED` compile-time flag
selects between the batched and strided trtri entry points, which the driver
calls with identical arguments; the model does not distinguish them. -/
def rocblas_trtri_trsm_template (NB : ℕ) (env : ℕ → rocblas_status)
    (uplo : rocblas_fill) (diag : rocblas_diagonal) (n : ℕ) (st : GpuState)
    (offset_Ain lda strideA offset_invAin strideInvA : ℕ) (batch_count : ℕ) :
    rocblas_status × GpuState × List TrsmOp :=
  if n = 0 then (.success, st, [])
  else
    let sub_blocks := n / NB
    if sub_blocks = 0 then
      trsm_remainder NB env uplo diag n
        offset_Ain lda strideA offset_invAin strideInvA batch_count st []
    else
      let IBD : ℕ := 8
      let IB : ℕ := NB / IBD
      let gridX := sub_blocks * IBD / 2
      let st1 := stage_trtri_kernel NB IB IBD uplo diag st
        offset_Ain lda strideA offset_invAin strideInvA gridX batch_count
      let ops1 := [TrsmOp.kernelLaunch gridX batch_count]
      if env 0 ≠ rocblas_status.success then (env 0, st1, ops1)
      else
        let st2 := stage_fill
          (match uplo with | .lower => .upper | .upper => .lower)
          NB NB (NB * NB) st1 offset_invAin strideInvA sub_blocks batch_count
        let ops2 := ops1 ++ [TrsmOp.fillLaunch NB sub_blocks batch_count]
        if env 1 ≠ rocblas_status.success then (env 1, st2, ops2)
        else
          let JB := IB * 4
          let sub_stride_A := NB * lda + NB
          let sub_stride_invA := NB * NB
          let sub_stride_C := JB * JB
          let r1 := rocblas_trtri_gemm_block (env 2) (env 3)
            (trsm_gemm_size IB 0) (trsm_gemm_size IB 0) st2
            lda strideA sub_stride_A NB strideInvA sub_stride_invA
            JB 0 sub_stride_C batch_count sub_blocks
            (offset_Ain + trsm_gemm_offset_A uplo IB lda 0)
            (offset_invAin + trsm_gemm_offset_invA1 uplo IB NB 0)
            (offset_invAin + trsm_gemm_offset_invA2 uplo IB NB 0)
            (offset_invAin + trsm_gemm_offset_invA3 uplo IB NB 0) 0
          let st3 := r1.2.1
          let r2 := rocblas_trtri_gemm_block (env 4) (env 5)
            (trsm_gemm_size IB 1) (trsm_gemm_size IB 1) st3
            lda strideA sub_stride_A NB strideInvA sub_stride_invA
            JB 0 sub_stride_C batch_count sub_blocks
            (offset_Ain + trsm_gemm_offset_A uplo IB lda 1)
            (offset_invAin + trsm_gemm_offset_invA1 uplo IB NB 1)
            (offset_invAin + trsm_gemm_offset_invA2 uplo IB NB 1)
            (offset_invAin + trsm_gemm_offset_invA3 uplo IB NB 1) 0
          let st4 := r2.2.1
          let r3 := rocblas_trtri_gemm_block (env 6) (env 7)
            (trsm_gemm_size IB 2) (trsm_gemm_size IB 2) st4
            lda strideA sub_stride_A NB strideInvA sub_stride_invA
            JB 0 sub_stride_C batch_count sub_blocks
            (offset_Ain + trsm_gemm_offset_A uplo IB lda 2)
            (offset_invAin + trsm_gemm_offset_invA1 uplo IB NB 2)
            (offset_invAin + trsm_gemm_offset_invA2 uplo IB NB 2)
            (offset_invAin + trsm_gemm_offset_invA3 uplo IB NB 2) 0
          let st5 := r3.2.1
          let ops5 := ops2 ++ r1.2.2 ++ r2.2.2 ++ r3.2.2
          trsm_remainder NB env uplo diag n
            offset_Ain lda strideA offset_invAin strideInvA batch_count st5 ops5

/-! ### Toolkit: characterizing `writeRegion` and flat-address arithmetic -/

theorem regionMemb_true_iff (base ld nn mm : ℕ) (dom : ℕ → ℕ → Bool) (addr : ℕ) :
    regionMemb base ld nn mm dom addr = true ↔
      ∃ j, j < mm ∧ ∃ i, i < nn ∧ dom i j = true ∧ addr = base + j * ld + i := by
  simp [regionMemb, Finset.mem_range]

theorem writeRegion_notin (buf : ℕ → ℚ) (count : ℕ) (base : ℕ → ℕ) (ld nn mm : ℕ)
    (dom : ℕ → ℕ → Bool) (v : ℕ → ℕ → ℕ → ℚ) (addr : ℕ)
    (h : ∀ k, k < count → regionMemb (base k) ld nn mm dom addr = false) :
    writeRegion buf count base ld nn mm dom v addr = buf addr := by
  have hf : (List.range count).find? (fun k => regionMemb (base k) ld nn mm dom addr)
      = none := by
    rw [List.find?_eq_none]
    intro k hk
    simp only [List.mem_range] at hk
    simp [h k hk]
  simp [writeRegion, hf]

theorem find?_range_eq_some (count : ℕ) (p : ℕ → Bool) (k0 : ℕ) (hk : k0 < count)
    (hp : p k0 = true) (huniq : ∀ k, k < count → p k = true → k = k0) :
    (List.range count).find? p = some k0 := by
  have h1 : ((List.range count).find? p).isSome := by
    rw [List.find?_isSome]
    exact ⟨k0, by simpa using hk, hp⟩
  obtain ⟨k, hk'⟩ := Option.isSome_iff_exists.mp h1
  have hkmem : k < count := by simpa using List.mem_of_find?_eq_some hk'
  have hkp : p k = true := List.find?_some hk'
  rw [hk', huniq k hkmem hkp]

theorem colrow_mod (ld j i : ℕ) (hi : i < ld) : (j * ld + i) % ld = i := by
  rw [mul_comm, Nat.mul_add_mod, Nat.mod_eq_of_lt hi]

theorem colrow_div (ld j i : ℕ) (hi : i < ld) : (j * ld + i) / ld = j := by
  have h0 : 0 < ld := by omega
  rw [mul_comm, Nat.mul_add_div h0, Nat.div_eq_of_lt hi, add_zero]

theorem writeRegion_value (buf : ℕ → ℚ) (count : ℕ) (base : ℕ → ℕ) (ld nn mm : ℕ)
    (dom : ℕ → ℕ → Bool) (v : ℕ → ℕ → ℕ → ℚ) (k0 i j : ℕ)
    (hk : k0 < count) (hi : i < nn) (hj : j < mm) (hdom : dom i j = true) (hild : i < ld)
    (huniq : ∀ k, k < count →
      regionMemb (base k) ld nn mm dom (base k0 + j * ld + i) = true → k = k0) :
    writeRegion buf count base ld nn mm dom v (base k0 + j * ld + i) = v k0 i j := by
  have hm : regionMemb (base k0) ld nn mm dom (base k0 + j * ld + i) = true :=
    (regionMemb_true_iff _ _ _ _ _ _).mpr ⟨j, hj, i, hi, hdom, rfl⟩
  have hf := find?_range_eq_some count
      (fun k => regionMemb (base k) ld nn mm dom (base k0 + j * ld + i)) k0 hk hm huniq
  simp only [writeRegion, hf]
  have hsub : base k0 + j * ld + i - base k0 = j * ld + i := by omega
  rw [hsub, colrow_mod _ _ _ hild, colrow_div _ _ _ hild]

theorem writeRegion_zero (buf : ℕ → ℚ) (count : ℕ) (base : ℕ → ℕ) (ld nn mm : ℕ)
    (dom : ℕ → ℕ → Bool) (addr : ℕ)
    (h : ∃ k, k < count ∧ regionMemb (base k) ld nn mm dom addr = true) :
    writeRegion buf count base ld nn mm dom (fun _ _ _ => 0) addr = 0 := by
  obtain ⟨k, hk, hm⟩ := h
  have h1 : ((List.range count).find? (fun k => regionMemb (base k) ld nn mm dom addr)).isSome := by
    rw [List.find?_isSome]
    exact ⟨k, by simpa using hk, hm⟩
  obtain ⟨k', hk'⟩ := Option.isSome_iff_exists.mp h1
  simp [writeRegion, hk']

theorem mulAddInj (s b c b' c' : ℕ) (hc : c < s) (hc' : c' < s)
    (h : b * s + c = b' * s + c') : b = b' ∧ c = c' := by
  have h0 : 0 < s := by omega
  have hb : b = b' := by
    have h1 : (b * s + c) / s = b := by
      rw [mul_comm, Nat.mul_add_div h0, Nat.div_eq_of_lt hc, add_zero]
    have h2 : (b' * s + c') / s = b' := by
      rw [mul_comm, Nat.mul_add_div h0, Nat.div_eq_of_lt hc', add_zero]
    rw [← h1, h, h2]
  subst hb
  exact ⟨rfl, by omega⟩

theorem tileAddrInj (stride off tsz tiles b b' t t' c c' : ℕ)
    (hs : off + tiles * tsz ≤ stride)
    (ht : t < tiles) (ht' : t' < tiles) (hc : c < tsz) (hc' : c' < tsz)
    (h : b * stride + (off + t * tsz + c) = b' * stride + (off + t' * tsz + c')) :
    b = b' ∧ t = t' ∧ c = c' := by
  have h1 : t * tsz + c < tiles * tsz := by
    have hmul : (t + 1) * tsz ≤ tiles * tsz :=
      Nat.mul_le_mul (Nat.succ_le_of_lt ht) (le_refl tsz)
    have : t * tsz + c < (t + 1) * tsz := by
      have : (t + 1) * tsz = t * tsz + tsz := by ring
      omega
    omega
  have h1' : t' * tsz + c' < tiles * tsz := by
    have hmul : (t' + 1) * tsz ≤ tiles * tsz :=
      Nat.mul_le_mul (Nat.succ_le_of_lt ht') (le_refl tsz)
    have : t' * tsz + c' < (t' + 1) * tsz := by
      have : (t' + 1) * tsz = t' * tsz + tsz := by ring
      omega
    omega
  obtain ⟨hb, hrest⟩ := mulAddInj stride b (off + t * tsz + c) b' (off + t' * tsz + c')
    (by omega) (by omega) h
  obtain ⟨htt, hcc⟩ := mulAddInj tsz t c t' c' hc hc' (by omega)
  exact ⟨hb, htt, hcc⟩

/-! ### Frame facts: no step writes the source buffer A -/

theorem stage_trtri_kernel_frame_a (NB IB IBD : ℕ) (uplo : rocblas_fill)
    (diag : rocblas_diagonal) (st : GpuState) (oA lda sA oI sI gX gY : ℕ) :
    (stage_trtri_kernel NB IB IBD uplo diag st oA lda sA oI sI gX gY).a = st.a := rfl

theorem stage_fill_frame_a (fu : rocblas_fill) (nn ld ss : ℕ) (st : GpuState)
    (off sI subc batch : ℕ) :
    (stage_fill fu nn ld ss st off sI subc batch).a = st.a := rfl

theorem rocblas_trtri_gemm_block_frame_a (e1 e2 : rocblas_status) (m n : ℕ)
    (st : GpuState) (lda sA ssA ldI sI ssI ldC sC ssC batch subs oA o1 o2 o3 oC : ℕ) :
    (rocblas_trtri_gemm_block e1 e2 m n st lda sA ssA ldI sI ssI ldC sC ssC
      batch subs oA o1 o2 o3 oC).2.1.a = st.a := by
  unfold rocblas_trtri_gemm_block
  dsimp only
  split <;> rfl

theorem rocblas_internal_trtri_template_frame_a (e : rocblas_status)
    (uplo : rocblas_fill) (diag : rocblas_diagonal) (nn : ℕ) (st : GpuState)
    (oA lda sA oI ldI sI batch : ℕ) :
    (rocblas_internal_trtri_template e uplo diag nn st oA lda sA oI ldI sI batch).2.1.a
      = st.a := rfl

theorem trsm_remainder_frame_a (NB : ℕ) (env : ℕ → rocblas_status)
    (uplo : rocblas_fill) (diag : rocblas_diagonal) (n : ℕ)
    (oA lda sA oI sI batch : ℕ) (stIn : GpuState) (opsIn : List TrsmOp) :
    (trsm_remainder NB env uplo diag n oA lda sA oI sI batch stIn opsIn).2.1.a
      = stIn.a := by
  unfold trsm_remainder
  dsimp only
  split
  · rfl
  · split
    · rfl
    · split <;> rfl

/-- C9: the source matrix buffer A is never written by
`rocblas_trtri_trsm_template`: the A component of the device state after the
call equals the one before it, for every input, environment and parameter
choice; all stores in the model (as in the source) target invA and C_tmp. -/
theorem C9_source_matrix_A_never_written (NB : ℕ) (env : ℕ → rocblas_status)
    (uplo : rocblas_fill) (diag : rocblas_diagonal) (n : ℕ) (st : GpuState)
    (oA lda sA oI sI batch : ℕ) :
    (rocblas_trtri_trsm_template NB env uplo diag n st oA lda sA oI sI batch).2.1.a
      = st.a := by
  unfold rocblas_trtri_trsm_template
  dsimp only
  split
  · rfl
  · split
    · rw [trsm_remainder_frame_a]
    · split
      · rfl
      · split
        · rfl
        · rw [trsm_remainder_frame_a, rocblas_trtri_gemm_block_frame_a,
            rocblas_trtri_gemm_block_frame_a, rocblas_trtri_gemm_block_frame_a]
          rfl

/-- C7: called with n = 0, `rocblas_trtri_trsm_template` is a no-op success:
it returns the success status, issues no sub-step, and leaves the whole device
state (invA and C_tmp included) unchanged. -/
theorem C7_quick_return_n_zero (NB : ℕ) (env : ℕ → rocblas_status)
    (uplo : rocblas_fill) (diag : rocblas_diagonal) (st : GpuState)
    (oA lda sA oI sI batch : ℕ) :
    rocblas_trtri_trsm_template NB env uplo diag 0 st oA lda sA oI sI batch
      = (rocblas_status.success, st, []) := by
  simp [rocblas_trtri_trsm_template]

/-! ### Concrete instances used by counterexamples and witnesses -/

/-- Environment in which every device sub-step succeeds. -/
def envAllSuccess : ℕ → rocblas_status := fun _ => rocblas_status.success

/-- Environment in which the first multiply of the first GEMM combination
helper call (issue slot 2) fails with error code 7 and every other sub-step
succeeds. -/
def envGemmFail : ℕ → rocblas_status := fun k =>
  if k = 2 then rocblas_status.failure 7 else rocblas_status.success

/-- Device state whose buffers hold all zeros. -/
def zeroState : GpuState := ⟨fun _ => 0, fun _ => 0, fun _ => 0⟩

/-- Device state whose A holds a concrete 8-by-8 lower-triangular matrix
(diagonal 2, strictly lower part 1, lda = 8) and whose invA and C_tmp hold
the sentinel values 99 and 77. -/
def sampleLowerState : GpuState :=
  ⟨fun x => if x % 8 = x / 8 then 2 else if x / 8 < x % 8 then 1 else 0,
   fun _ => 99, fun _ => 77⟩

/-- Device state whose A holds a concrete 11-by-11 lower-triangular matrix
(diagonal 2, strictly lower part 1, lda = 11) and whose invA and C_tmp hold
the sentinel values 99 and 77. -/
def sampleN11State : GpuState :=
  ⟨fun x => if x % 11 = x / 11 then 2 else if x / 11 < x % 11 then 1 else 0,
   fun _ => 99, fun _ => 77⟩

/-! ### C5: status propagation -/

/-- C5 counterexample: with NB = 8, n = 8 and an environment in which the
first GEMM multiply of the first combination helper call (slot 2) fails with
code 7, `rocblas_trtri_trsm_template` still returns success: the helper's
status is discarded by the driver, so a failing GEMM sub-step neither aborts
the call nor propagates its status, contrary to the claim. -/
theorem C5_counterexample_gemm_status_discarded :
    (rocblas_trtri_trsm_template 8 envGemmFail rocblas_fill.lower
        rocblas_diagonal.non_unit 8 zeroState 0 8 64 0 64 1).1
        = rocblas_status.success
      ∧ envGemmFail 2 = rocblas_status.failure 7 :=
  ⟨rfl, rfl⟩

theorem trsm_remainder_status (NB : ℕ) (env : ℕ → rocblas_status)
    (uplo : rocblas_fill) (diag : rocblas_diagonal) (n : ℕ)
    (oA lda sA oI sI batch : ℕ) (stIn : GpuState) (opsIn : List TrsmOp) :
    (trsm_remainder NB env uplo diag n oA lda sA oI sI batch stIn opsIn).1
      = if n - n / NB * NB = 0 then rocblas_status.success
        else if env 8 ≠ rocblas_status.success then env 8
        else if env 9 ≠ rocblas_status.success then env 9
        else rocblas_status.success := by
  unfold trsm_remainder rocblas_internal_trtri_template
  dsimp only
  split_ifs <;> rfl

/-- C5 (amended): the status returned by `rocblas_trtri_trsm_template` is the
first non-success status among the checked sub-steps only — the
diagonal-inversion kernel launch (slot 0) and the fill launch (slot 1) when
full tiles exist, and the remainder fill launch (slot 8) and remainder trtri
(slot 9) when a partial tile exists — each aborting the remaining checked
steps and propagating unchanged; the statuses of the three GEMM combination
helper calls (slots 2-7) are discarded and never affect the result. -/
theorem C5_amended_status_characterization (NB : ℕ) (env : ℕ → rocblas_status)
    (uplo : rocblas_fill) (diag : rocblas_diagonal) (n : ℕ) (st : GpuState)
    (oA lda sA oI sI batch : ℕ) :
    (rocblas_trtri_trsm_template NB env uplo diag n st oA lda sA oI sI batch).1
      = if n = 0 then rocblas_status.success
        else if n / NB ≠ 0 ∧ env 0 ≠ rocblas_status.success then env 0
        else if n / NB ≠ 0 ∧ env 1 ≠ rocblas_status.success then env 1
        else if n - n / NB * NB ≠ 0 ∧ env 8 ≠ rocblas_status.success then env 8
        else if n - n / NB * NB ≠ 0 ∧ env 9 ≠ rocblas_status.success then env 9
        else rocblas_status.success := by
  unfold rocblas_trtri_trsm_template
  dsimp only
  by_cases h0 : n = 0
  · simp [h0]
  · rw [if_neg h0, if_neg h0]
    by_cases hsub : n / NB = 0
    · rw [if_pos hsub, trsm_remainder_status]
      simp only [hsub, ne_eq, not_true_eq_false, false_and, if_false]
      split_ifs <;> tauto
    · rw [if_neg hsub]
      by_cases he0 : env 0 ≠ rocblas_status.success
      · rw [if_pos he0]
        simp only [ne_eq, hsub, not_false_eq_true, true_and, he0, if_true]
      · rw [if_neg he0]
        by_cases he1 : env 1 ≠ rocblas_status.success
        · rw [if_pos he1]
          simp only [ne_eq, hsub, not_false_eq_true, true_and, he0, he1,
            not_false_eq_true, if_false, if_true]
        · rw [if_neg he1, trsm_remainder_status]
          simp only [ne_eq, hsub, not_false_eq_true, true_and, he0, he1, if_false]
          split_ifs <;> tauto

/-! ### C6: combination-level structure of the issued GEMMs -/

/-- Block sizes of the GEMM multiplies recorded in a trace, in issue order. -/
def gemmSizes (ops : List TrsmOp) : List ℕ :=
  ops.filterMap (fun op => match op with
    | TrsmOp.gemmCall m _ _ _ _ _ _ _ _ => some m
    | _ => none)

theorem rocblas_trtri_gemm_block_trace_ok (e2 : rocblas_status) (m n : ℕ)
    (st : GpuState) (lda sA ssA ldI sI ssI ldC sC ssC batch subs oA o1 o2 o3 oC : ℕ) :
    (rocblas_trtri_gemm_block rocblas_status.success e2 m n st lda sA ssA ldI sI ssI
        ldC sC ssC batch subs oA o1 o2 o3 oC).2.2
      = [TrsmOp.gemmCall m n n false oA o1 oC subs batch,
         TrsmOp.gemmCall m n m true o2 oC o3 subs batch] := by
  unfold rocblas_trtri_gemm_block
  dsimp only
  rw [if_neg (by simp)]

theorem trsm_remainder_trace (NB : ℕ) (env : ℕ → rocblas_status)
    (uplo : rocblas_fill) (diag : rocblas_diagonal) (n : ℕ)
    (oA lda sA oI sI batch : ℕ) (stIn : GpuState) (opsIn : List TrsmOp)
    (h8 : env 8 = rocblas_status.success) :
    (trsm_remainder NB env uplo diag n oA lda sA oI sI batch stIn opsIn).2.2
      = opsIn ++ (if n - n / NB * NB = 0 then []
          else [TrsmOp.fillLaunch (n - n / NB * NB) 1 batch,
                TrsmOp.trtriCall (n - n / NB * NB)
                  (n / NB * NB * lda + n / NB * NB + oA)
                  (n / NB * NB * NB + oI) batch]) := by
  unfold trsm_remainder rocblas_internal_trtri_template
  dsimp only
  split_ifs with h1 h2 h3 <;> simp_all

/-- C6 counterexample: with NB = 8 (so IB = 1) and n = NB, the GEMM multiplies
issued through the combination helper have block sizes [2, 2, 2, 2, 4, 4]: no
GEMM operates at the leaf size IB = 1, so the IB to 2·IB transition is not
realized by GEMM calls through the helper (it happens inside the diagonal
kernel), contrary to the claim's three GEMM-realized doubling levels starting
at IB. -/
theorem C6_counterexample_no_IB_sized_gemm :
    gemmSizes (rocblas_trtri_trsm_template 8 envAllSuccess rocblas_fill.lower
        rocblas_diagonal.non_unit 8 zeroState 0 8 64 0 64 1).2.2 = [2, 2, 2, 2, 4, 4]
      ∧ 1 ∉ gemmSizes (rocblas_trtri_trsm_template 8 envAllSuccess rocblas_fill.lower
        rocblas_diagonal.non_unit 8 zeroState 0 8 64 0 64 1).2.2 := by
  refine ⟨rfl, ?_⟩
  decide

/-- C6 (amended): for n a positive multiple-or-more of NB (sub_blocks > 0) and
an all-success environment, the trace is: one diagonal-kernel launch covering
the 2·IB-sized diagonal blocks, one fill launch, then exactly three
combination-helper calls, each issuing two sequential GEMMs batched over all
n/NB tiles and the whole batch simultaneously — two calls at block size
2·(NB/8) (the two half-tile groups of the 2·IB to 4·IB level) and one at block
size 4·(NB/8) (the 4·IB to NB level) — followed by the remainder steps if n is
not divisible by NB.  The IB to 2·IB transition is not realized by helper
GEMMs. -/
theorem C6_amended_gemm_trace (NB : ℕ) (env : ℕ → rocblas_status)
    (uplo : rocblas_fill) (diag : rocblas_diagonal) (n : ℕ) (st : GpuState)
    (oA lda sA oI sI batch : ℕ)
    (henv : ∀ k, env k = rocblas_status.success) (hsub : n / NB ≠ 0) :
    (rocblas_trtri_trsm_template NB env uplo diag n st oA lda sA oI sI batch).2.2
      = [TrsmOp.kernelLaunch (n / NB * 8 / 2) batch,
         TrsmOp.fillLaunch NB (n / NB) batch,
         TrsmOp.gemmCall (NB / 8 * 2) (NB / 8 * 2) (NB / 8 * 2) false
           (oA + trsm_gemm_offset_A uplo (NB / 8) lda 0)
           (oI + trsm_gemm_offset_invA1 uplo (NB / 8) NB 0) 0 (n / NB) batch,
         TrsmOp.gemmCall (NB / 8 * 2) (NB / 8 * 2) (NB / 8 * 2) true
           (oI + trsm_gemm_offset_invA2 uplo (NB / 8) NB 0) 0
           (oI + trsm_gemm_offset_invA3 uplo (NB / 8) NB 0) (n / NB) batch,
         TrsmOp.gemmCall (NB / 8 * 2) (NB / 8 * 2) (NB / 8 * 2) false
           (oA + trsm_gemm_offset_A uplo (NB / 8) lda 1)
           (oI + trsm_gemm_offset_invA1 uplo (NB / 8) NB 1) 0 (n / NB) batch,
         TrsmOp.gemmCall (NB / 8 * 2) (NB / 8 * 2) (NB / 8 * 2) true
           (oI + trsm_gemm_offset_invA2 uplo (NB / 8) NB 1) 0
           (oI + trsm_gemm_offset_invA3 uplo (NB / 8) NB 1) (n / NB) batch,
         TrsmOp.gemmCall (NB / 8 * 4) (NB / 8 * 4) (NB / 8 * 4) false
           (oA + trsm_gemm_offset_A uplo (NB / 8) lda 2)
           (oI + trsm_gemm_offset_invA1 uplo (NB / 8) NB 2) 0 (n / NB) batch,
         TrsmOp.gemmCall (NB / 8 * 4) (NB / 8 * 4) (NB / 8 * 4) true
           (oI + trsm_gemm_offset_invA2 uplo (NB / 8) NB 2) 0
           (oI + trsm_gemm_offset_invA3 uplo (NB / 8) NB 2) (n / NB) batch]
        ++ (if n - n / NB * NB = 0 then []
            else [TrsmOp.fillLaunch (n - n / NB * NB) 1 batch,
                  TrsmOp.trtriCall (n - n / NB * NB)
                    (n / NB * NB * lda + n / NB * NB + oA)
                    (n / NB * NB * NB + oI) batch]) := by
  have h0 : n ≠ 0 := by
    intro h
    exact hsub (by simp [h])
  unfold rocblas_trtri_trsm_template
  dsimp only
  rw [if_neg h0, if_neg hsub, if_neg (by simp [henv 0]), if_neg (by simp [henv 1])]
  rw [henv 2, henv 4, henv 6]
  rw [trsm_remainder_trace _ _ _ _ _ _ _ _ _ _ _ _ _ (henv 8)]
  rw [rocblas_trtri_gemm_block_trace_ok, rocblas_trtri_gemm_block_trace_ok,
    rocblas_trtri_gemm_block_trace_ok]
  simp only [trsm_gemm_size, List.cons_append, List.nil_append, List.append_assoc]

/-- Witness for the amended C6 trace theorem at NB = 8, n = 8, lower, one
batch entry: the hypotheses hold and the issued trace is the concrete
two-GEMMs-per-helper-call list of sizes 2, 2, 2, 2, 4, 4. -/
theorem C6_amended_gemm_trace_witness :
    (∀ k, envAllSuccess k = rocblas_status.success) ∧ (8 : ℕ) / 8 ≠ 0
      ∧ (rocblas_trtri_trsm_template 8 envAllSuccess rocblas_fill.lower
          rocblas_diagonal.non_unit 8 zeroState 0 8 64 0 64 1).2.2
        = [TrsmOp.kernelLaunch 4 1, TrsmOp.fillLaunch 8 1 1,
           TrsmOp.gemmCall 2 2 2 false 2 0 0 1 1,
           TrsmOp.gemmCall 2 2 2 true 18 0 2 1 1,
           TrsmOp.gemmCall 2 2 2 false 38 36 0 1 1,
           TrsmOp.gemmCall 2 2 2 true 54 0 38 1 1,
           TrsmOp.gemmCall 4 4 4 false 4 0 0 1 1,
           TrsmOp.gemmCall 4 4 4 true 36 0 4 1 1] :=
  ⟨fun _ => rfl, by decide,
   by
    rw [C6_amended_gemm_trace 8 envAllSuccess rocblas_fill.lower
      rocblas_diagonal.non_unit 8 zeroState 0 8 64 0 64 1 (fun _ => rfl) (by decide)]
    rfl⟩

/-! ### C10: 0 < n < NB runs only the remainder path -/

theorem rocblas_internal_trtri_template_status (e : rocblas_status)
    (uplo : rocblas_fill) (diag : rocblas_diagonal) (nn : ℕ) (st : GpuState)
    (oA lda sA oI ldI sI batch : ℕ) :
    (rocblas_internal_trtri_template e uplo diag nn st oA lda sA oI ldI sI batch).1
      = e := rfl

theorem rocblas_internal_trtri_template_trace (e : rocblas_status)
    (uplo : rocblas_fill) (diag : rocblas_diagonal) (nn : ℕ) (st : GpuState)
    (oA lda sA oI ldI sI batch : ℕ) :
    (rocblas_internal_trtri_template e uplo diag nn st oA lda sA oI ldI sI batch).2.2
      = [TrsmOp.trtriCall nn oA oI batch] := rfl

/-- C10: for 0 < n < NB, sub_blocks = n / NB = 0, so the diagonal-inversion
kernel, the full-tile fill and all three GEMM combination calls are skipped
entirely; the call is exactly the remainder path with rem = n: one fill launch
over the opposite half of the n-by-n leading block of the first tile of invA,
followed by one direct trtri call writing the size-n inverse into that first
tile (read offset oA, write offset oI, batch count unchanged), returning
success. -/
theorem C10_small_n_runs_only_remainder (NB : ℕ) (env : ℕ → rocblas_status)
    (uplo : rocblas_fill) (diag : rocblas_diagonal) (n : ℕ) (st : GpuState)
    (oA lda sA oI sI batch : ℕ)
    (h0 : 0 < n) (hn : n < NB)
    (h8 : env 8 = rocblas_status.success) (h9 : env 9 = rocblas_status.success) :
    rocblas_trtri_trsm_template NB env uplo diag n st oA lda sA oI sI batch
      = (rocblas_status.success,
         (rocblas_internal_trtri_template (env 9) uplo diag n
           (stage_fill (match uplo with
              | rocblas_fill.lower => rocblas_fill.upper
              | rocblas_fill.upper => rocblas_fill.lower)
             n NB 0 st oI sI 1 batch)
           oA lda sA oI NB sI batch).2.1,
         [TrsmOp.fillLaunch n 1 batch, TrsmOp.trtriCall n oA oI batch]) := by
  have hdiv : n / NB = 0 := Nat.div_eq_of_lt hn
  unfold rocblas_trtri_trsm_template trsm_remainder
  dsimp only
  rw [if_neg (by omega : ¬ n = 0), if_pos hdiv]
  simp only [hdiv, Nat.zero_mul, zero_mul, Nat.zero_add, zero_add, Nat.sub_zero,
    Nat.mul_zero, mul_zero]
  rw [if_neg (by omega : ¬ n = 0)]
  rw [if_neg (by simp [h8])]
  rw [if_neg (by simp [rocblas_internal_trtri_template_status, h9])]
  simp [rocblas_internal_trtri_template_trace]

/-- Witness for C10 at NB = 8, n = 3, lower, one batch entry. -/
theorem C10_small_n_runs_only_remainder_witness :
    0 < 3 ∧ 3 < 8 ∧ envAllSuccess 8 = rocblas_status.success
      ∧ envAllSuccess 9 = rocblas_status.success
      ∧ rocblas_trtri_trsm_template 8 envAllSuccess rocblas_fill.lower
          rocblas_diagonal.non_unit 3 sampleLowerState 0 8 200 0 64 1
        = (rocblas_status.success,
           (rocblas_internal_trtri_template (envAllSuccess 9) rocblas_fill.lower
             rocblas_diagonal.non_unit 3
             (stage_fill rocblas_fill.upper 3 8 0 sampleLowerState 0 64 1 1)
             0 8 200 0 8 64 1).2.1,
           [TrsmOp.fillLaunch 3 1 1, TrsmOp.trtriCall 3 0 0 1]) :=
  ⟨by decide, by decide, rfl, rfl,
   C10_small_n_runs_only_remainder 8 envAllSuccess rocblas_fill.lower
     rocblas_diagonal.non_unit 3 sampleLowerState 0 8 200 0 64 1
     (by decide) (by decide) rfl rfl⟩

/-! ### C4: the trailing remainder block -/

theorem trsm_remainder_invA_value (NB : ℕ) (env : ℕ → rocblas_status)
    (uplo : rocblas_fill) (diag : rocblas_diagonal) (n : ℕ)
    (oA lda sA oI sI batch : ℕ) (stIn : GpuState) (opsIn : List TrsmOp)
    (hNB : 0 < NB)
    (hstr : oI + n / NB * NB * NB + NB * NB ≤ sI)
    (h8 : env 8 = rocblas_status.success)
    (b : ℕ) (hb : b < batch) (i j : ℕ) (hi : i < n % NB) (hj : j < n % NB)
    (hact : (match uplo with
      | rocblas_fill.lower => decide (j ≤ i)
      | rocblas_fill.upper => decide (i ≤ j)) = true) :
    (trsm_remainder NB env uplo diag n oA lda sA oI sI batch stIn opsIn).2.1.invA
        (b * sI + (n / NB * NB * NB + oI) + j * NB + i)
      = tri_inverse uplo diag (n % NB)
          (fun r c => stIn.a (b * sA + (n / NB * NB * lda + n / NB * NB + oA)
            + c * lda + r)) i j := by
  have hmod : n - n / NB * NB = n % NB := by
    have h := Nat.div_add_mod n NB
    have h2 : NB * (n / NB) = n / NB * NB := Nat.mul_comm _ _
    omega
  have hremlt : n % NB < NB := Nat.mod_lt _ hNB
  have hbound : ∀ j' i' : ℕ, j' < n % NB → i' < n % NB →
      n / NB * NB * NB + oI + (j' * NB + i') < sI := by
    intro j' i' hj' hi'
    have h1 : j' * NB + i' < NB * NB := by
      have h2 : (j' + 1) * NB ≤ NB * NB := Nat.mul_le_mul (by omega) (le_refl NB)
      have h3 : (j' + 1) * NB = j' * NB + NB := by ring
      omega
    have h4 : n / NB * NB * NB + oI + (j' * NB + i')
        < n / NB * NB * NB + oI + NB * NB := by omega
    have h5 : n / NB * NB * NB + oI + NB * NB ≤ sI := by
      have h6 : n / NB * NB * NB + oI + NB * NB
          = oI + n / NB * NB * NB + NB * NB := by ring
      omega
    omega
  have huniq : ∀ dom : ℕ → ℕ → Bool, ∀ k, k < batch →
      regionMemb (k * sI + (n / NB * NB * NB + oI)) NB (n - n / NB * NB)
        (n - n / NB * NB) dom
        (b * sI + (n / NB * NB * NB + oI) + j * NB + i) = true → k = b := by
    intro dom k hk hm
    rw [regionMemb_true_iff] at hm
    obtain ⟨j', hj', i', hi', hdom', haddr⟩ := hm
    have e1 : b * sI + (n / NB * NB * NB + oI) + j * NB + i
        = b * sI + (n / NB * NB * NB + oI + (j * NB + i)) := by ring
    have e2 : k * sI + (n / NB * NB * NB + oI) + j' * NB + i'
        = k * sI + (n / NB * NB * NB + oI + (j' * NB + i')) := by ring
    rw [e1, e2] at haddr
    exact ((mulAddInj sI b _ k _ (hbound j i hj hi)
      (hbound j' i' (by omega) (by omega)) haddr).1).symm
  cases uplo <;>
  · unfold trsm_remainder rocblas_internal_trtri_template
    dsimp only
    rw [if_neg (by omega : ¬ n - n / NB * NB = 0)]
    rw [if_neg (by simp [h8])]
    split
    all_goals dsimp only
    all_goals
      rw [writeRegion_value _ batch (fun b' => b' * sI + (n / NB * NB * NB + oI)) NB
        (n - n / NB * NB) (n - n / NB * NB) _ _ b i j hb (by omega) (by omega) hact
        (by omega) (huniq _)]
    all_goals
      simp only [hmod]
    all_goals rfl

/-- C4: for every n not a multiple of NB, the trailing rem = n % NB
rows/columns are processed as an independent size-rem triangular inversion
with batch count unchanged — a padding launch for the rem-by-rem tile followed
by one direct trtri instance — writing into the final partial tile of invA at
offset sub_blocks*NB*NB and reading A at diagonal offset sub_blocks*NB*(lda+1),
spelled sub_blocks*NB*lda + sub_blocks*NB: the issued trace ends with exactly
those two sub-steps, and every active-half entry of the final partial tile of
every batch entry holds the exact inverse of the trailing rem-by-rem block of
that same batch entry of A. -/
theorem C4_remainder_independent_inversion (NB : ℕ) (env : ℕ → rocblas_status)
    (uplo : rocblas_fill) (diag : rocblas_diagonal) (n : ℕ) (st : GpuState)
    (oA lda sA oI sI batch : ℕ)
    (henv : ∀ k, env k = rocblas_status.success)
    (hrem : n % NB ≠ 0) (hNB : 0 < NB)
    (hstr : oI + n / NB * NB * NB + NB * NB ≤ sI)
    (b : ℕ) (hb : b < batch) (i j : ℕ) (hi : i < n % NB) (hj : j < n % NB)
    (hact : (match uplo with
      | rocblas_fill.lower => decide (j ≤ i)
      | rocblas_fill.upper => decide (i ≤ j)) = true) :
    (rocblas_trtri_trsm_template NB env uplo diag n st oA lda sA oI sI batch).2.1.invA
        (b * sI + (n / NB * NB * NB + oI) + j * NB + i)
      = tri_inverse uplo diag (n % NB)
          (fun r c => st.a (b * sA + (n / NB * NB * lda + n / NB * NB + oA)
            + c * lda + r)) i j
      ∧ (∃ pre, (rocblas_trtri_trsm_template NB env uplo diag n st
            oA lda sA oI sI batch).2.2
          = pre ++ [TrsmOp.fillLaunch (n % NB) 1 batch,
                    TrsmOp.trtriCall (n % NB)
                      (n / NB * NB * lda + n / NB * NB + oA)
                      (n / NB * NB * NB + oI) batch]) := by
  have h0 : n ≠ 0 := by
    intro h
    exact hrem (by simp [h])
  have hmod : n - n / NB * NB = n % NB := by
    have h := Nat.div_add_mod n NB
    have h2 : NB * (n / NB) = n / NB * NB := Nat.mul_comm _ _
    omega
  unfold rocblas_trtri_trsm_template
  dsimp only
  rw [if_neg h0]
  by_cases hsub : n / NB = 0
  · rw [if_pos hsub]
    constructor
    · exact trsm_remainder_invA_value NB env uplo diag n oA lda sA oI sI batch st []
        hNB hstr (henv 8) b hb i j hi hj hact
    · rw [trsm_remainder_trace NB env uplo diag n oA lda sA oI sI batch _ _ (henv 8)]
      rw [if_neg (by omega : ¬ n - n / NB * NB = 0)]
      exact ⟨[], by rw [hmod]⟩
  · rw [if_neg hsub, if_neg (by simp [henv 0]), if_neg (by simp [henv 1])]
    constructor
    · rw [trsm_remainder_invA_value NB env uplo diag n oA lda sA oI sI batch _ _
        hNB hstr (henv 8) b hb i j hi hj hact]
      simp only [rocblas_trtri_gemm_block_frame_a, stage_fill_frame_a,
        stage_trtri_kernel_frame_a]
    · rw [trsm_remainder_trace NB env uplo diag n oA lda sA oI sI batch _ _ (henv 8)]
      rw [if_neg (by omega : ¬ n - n / NB * NB = 0)]
      exact ⟨_, by rw [hmod]⟩

/-- Witness for C4 at NB = 8, n = 11 (rem = 3), lower, one batch entry,
lda = 11, entry (i, j) = (1, 0) of the final partial tile. -/
theorem C4_remainder_independent_inversion_witness :
    (∀ k, envAllSuccess k = rocblas_status.success) ∧ (11 : ℕ) % 8 ≠ 0 ∧ (0 : ℕ) < 8
      ∧ (0 : ℕ) + 11 / 8 * 8 * 8 + 8 * 8 ≤ 128 ∧ (0 : ℕ) < 1
      ∧ (1 : ℕ) < 11 % 8 ∧ (0 : ℕ) < 11 % 8
      ∧ ((rocblas_trtri_trsm_template 8 envAllSuccess rocblas_fill.lower
            rocblas_diagonal.non_unit 11 sampleN11State 0 11 200 0 128 1).2.1.invA
            (0 * 128 + (11 / 8 * 8 * 8 + 0) + 0 * 8 + 1)
          = tri_inverse rocblas_fill.lower rocblas_diagonal.non_unit (11 % 8)
              (fun r c => sampleN11State.a (0 * 200 + (11 / 8 * 8 * 11 + 11 / 8 * 8 + 0)
                + c * 11 + r)) 1 0
          ∧ (∃ pre, (rocblas_trtri_trsm_template 8 envAllSuccess rocblas_fill.lower
                rocblas_diagonal.non_unit 11 sampleN11State 0 11 200 0 128 1).2.2
              = pre ++ [TrsmOp.fillLaunch (11 % 8) 1 1,
                        TrsmOp.trtriCall (11 % 8) (11 / 8 * 8 * 11 + 11 / 8 * 8 + 0)
                          (11 / 8 * 8 * 8 + 0) 1])) :=
  ⟨fun _ => rfl, by decide, by decide, by decide, by decide, by decide, by decide,
   C4_remainder_independent_inversion 8 envAllSuccess rocblas_fill.lower
     rocblas_diagonal.non_unit 11 sampleN11State 0 11 200 0 128 1
     (fun _ => rfl) (by decide) (by decide) (by decide) 0 (by decide) 1 0
     (by decide) (by decide) (by decide)⟩

/-! ### C3: zero padding outside the active triangular half -/

/-- C3 counterexample: NB = 8, n = 3 (so the only tile is partial, rem = 3),
lower mode, invA initialized to the sentinel 99.  The call succeeds, yet entry
(row 0, column 3) of the tile — outside the active lower half and beyond the
rem-by-rem extent — still holds 99: entries of the final partial tile beyond
the matrix extent are never zero-filled. -/
theorem C3_counterexample_beyond_extent_not_zero :
    (rocblas_trtri_trsm_template 8 envAllSuccess rocblas_fill.lower
        rocblas_diagonal.non_unit 3 sampleN11State 0 11 200 0 128 1).1
        = rocblas_status.success
      ∧ (rocblas_trtri_trsm_template 8 envAllSuccess rocblas_fill.lower
          rocblas_diagonal.non_unit 3 sampleN11State 0 11 200 0 128 1).2.1.invA
          (3 * 8 + 0) = 99 := by
  constructor
  · rfl
  · decide

theorem colrow_lt (NB j i : ℕ) (hi : i < NB) (hj : j < NB) : j * NB + i < NB * NB := by
  have h2 : (j + 1) * NB ≤ NB * NB := Nat.mul_le_mul (by omega) (le_refl NB)
  have h3 : (j + 1) * NB = j * NB + NB := by ring
  omega

/-- Membership of an in-tile entry (i, j) in a stored sub-block whose tile
offset is co*NB + ro pins down the batch slice, the tile, and localizes (i, j)
to the sub-block's rectangle. -/
theorem tile_block_memb_bounds (NB co ro S sI oI sub b t i j k O3 : ℕ)
    (hO : O3 = co * NB + ro)
    (hstr : oI + sub * (NB * NB) + NB * NB ≤ sI)
    (ht : t < sub) (hi : i < NB) (hj : j < NB)
    (hro : ro + S ≤ NB) (hco : co + S ≤ NB)
    (hm : regionMemb ((k / sub) * sI + (k % sub) * (NB * NB) + (oI + O3)) NB
        S S (fun _ _ => true) (b * sI + t * (NB * NB) + oI + j * NB + i) = true) :
    b = k / sub ∧ t = k % sub ∧ ro ≤ i ∧ i < ro + S ∧ co ≤ j ∧ j < co + S := by
  subst hO
  rw [regionMemb_true_iff] at hm
  obtain ⟨j', hj', i', hi', -, haddr⟩ := hm
  have hsub0 : 0 < sub := by omega
  have hksub : k % sub < sub := Nat.mod_lt _ hsub0
  have e1 : b * sI + t * (NB * NB) + oI + j * NB + i
      = b * sI + (oI + t * (NB * NB) + (j * NB + i)) := by ring
  have e2 : (k / sub) * sI + (k % sub) * (NB * NB) + (oI + (co * NB + ro)) + j' * NB + i'
      = (k / sub) * sI + (oI + (k % sub) * (NB * NB) + ((co + j') * NB + (ro + i'))) := by
    ring
  rw [e1, e2] at haddr
  have hb1 : j * NB + i < NB * NB := colrow_lt NB j i hi hj
  have hb2 : (co + j') * NB + (ro + i') < NB * NB :=
    colrow_lt NB _ _ (by omega) (by omega)
  obtain ⟨hbb, htt, hcc⟩ := tileAddrInj sI oI (NB * NB) sub b (k / sub) t (k % sub)
    (j * NB + i) ((co + j') * NB + (ro + i')) (by omega) ht hksub hb1 hb2 haddr
  obtain ⟨hjj, hii⟩ := mulAddInj NB j i (co + j') (ro + i') hi (by omega) hcc
  exact ⟨hbb, htt, by omega, by omega, by omega, by omega⟩

/-- The destination sub-block of every GEMM combination level lies entirely in
the active triangular half: an entry strictly on the opposite half of a full
tile is never a member of any destination region of any of the three levels,
in either mode. -/
theorem gemm_dest_avoids_opposite (NB IB : ℕ) (hNB : NB = 8 * IB) (hIB : 0 < IB)
    (uplo : rocblas_fill) (lv : ℕ) (hlv : lv < 3)
    (sI oI sub batch b t i j : ℕ)
    (hstr : oI + sub * (NB * NB) + NB * NB ≤ sI)
    (ht : t < sub) (hi : i < NB) (hj : j < NB)
    (hopp : (match uplo with
      | rocblas_fill.lower => decide (i < j)
      | rocblas_fill.upper => decide (j < i)) = true) :
    ∀ k, k < batch * sub →
      regionMemb ((k / sub) * sI + (k % sub) * (NB * NB)
          + (oI + trsm_gemm_offset_invA3 uplo IB NB lv)) NB
        (trsm_gemm_size IB lv) (trsm_gemm_size IB lv) (fun _ _ => true)
        (b * sI + t * (NB * NB) + oI + j * NB + i) = false := by
  intro k hk
  rw [Bool.eq_false_iff]
  intro hm
  interval_cases lv <;> cases uplo <;>
    simp only [trsm_gemm_offset_invA3, trsm_gemm_size, reduceIte,
      if_true, if_false] at hm hopp
  · obtain ⟨-, -, h1, h2, h3, h4⟩ := tile_block_memb_bounds NB 0 (IB * 2) (IB * 2)
      sI oI sub b t i j k (IB * 2) (by ring) hstr ht hi hj (by omega) (by omega) hm
    have := of_decide_eq_true hopp
    omega
  · obtain ⟨-, -, h1, h2, h3, h4⟩ := tile_block_memb_bounds NB (IB * 2) 0 (IB * 2)
      sI oI sub b t i j k (IB * 2 * NB) (by ring) hstr ht hi hj (by omega) (by omega) hm
    have := of_decide_eq_true hopp
    omega
  · obtain ⟨-, -, h1, h2, h3, h4⟩ := tile_block_memb_bounds NB (IB * 4) (IB * 6) (IB * 2)
      sI oI sub b t i j k (IB * 4 * NB + IB * 6) (by ring) hstr ht hi hj
      (by omega) (by omega) hm
    have := of_decide_eq_true hopp
    omega
  · obtain ⟨-, -, h1, h2, h3, h4⟩ := tile_block_memb_bounds NB (IB * 6) (IB * 4) (IB * 2)
      sI oI sub b t i j k (IB * 6 * NB + IB * 4) (by ring) hstr ht hi hj
      (by omega) (by omega) hm
    have := of_decide_eq_true hopp
    omega
  · obtain ⟨-, -, h1, h2, h3, h4⟩ := tile_block_memb_bounds NB 0 (IB * 4) (IB * 4)
      sI oI sub b t i j k (IB * 4) (by ring) hstr ht hi hj (by omega) (by omega) hm
    have := of_decide_eq_true hopp
    omega
  · obtain ⟨-, -, h1, h2, h3, h4⟩ := tile_block_memb_bounds NB (IB * 4) 0 (IB * 4)
      sI oI sub b t i j k (IB * 4 * NB) (by ring) hstr ht hi hj (by omega) (by omega) hm
    have := of_decide_eq_true hopp
    omega

theorem rocblas_trtri_gemm_block_invA_notin (e1 e2 : rocblas_status) (m n : ℕ)
    (st : GpuState)
    (lda sA ssA ldI sI ssI ldC sC ssC batch subs oA o1 o2 o3 oC addr : ℕ)
    (h : ∀ k, k < batch * subs → regionMemb ((k / subs) * sI + (k % subs) * ssI + o3)
        ldI m n (fun _ _ => true) addr = false) :
    (rocblas_trtri_gemm_block e1 e2 m n st lda sA ssA ldI sI ssI
        ldC sC ssC batch subs oA o1 o2 o3 oC).2.1.invA addr = st.invA addr := by
  unfold rocblas_trtri_gemm_block
  dsimp only
  split
  · rfl
  · exact writeRegion_notin _ _ _ _ _ _ _ _ _ h

/-- The remainder path leaves every invA address outside the (per-batch)
final-partial-tile region unchanged. -/
theorem trsm_remainder_invA_notin (NB : ℕ) (env : ℕ → rocblas_status)
    (uplo : rocblas_fill) (diag : rocblas_diagonal) (n : ℕ)
    (oA lda sA oI sI batch : ℕ) (stIn : GpuState) (opsIn : List TrsmOp) (addr : ℕ)
    (h : ∀ (dom : ℕ → ℕ → Bool) (k : ℕ), k < batch →
        regionMemb (k * sI + (n / NB * NB * NB + oI)) NB (n - n / NB * NB)
          (n - n / NB * NB) dom addr = false) :
    (trsm_remainder NB env uplo diag n oA lda sA oI sI batch stIn opsIn).2.1.invA addr
      = stIn.invA addr := by
  have hfill : ∀ (dom : ℕ → ℕ → Bool) (k : ℕ), k < batch * 1 →
      regionMemb ((k / 1) * sI + (k % 1) * 0 + (n / NB * NB * NB + oI)) NB
        (n - n / NB * NB) (n - n / NB * NB) dom addr = false := by
    intro dom k hk
    have e : (k / 1) * sI + (k % 1) * 0 + (n / NB * NB * NB + oI)
        = k * sI + (n / NB * NB * NB + oI) := by
      simp [Nat.div_one, Nat.mod_one]
    rw [e]
    exact h dom k (by omega)
  unfold trsm_remainder rocblas_internal_trtri_template stage_fill
  dsimp only
  split
  · rfl
  · split
    · dsimp only
      exact writeRegion_notin _ _ _ _ _ _ _ _ _ (hfill _)
    · split <;>
      · dsimp only
        rw [writeRegion_notin _ _ _ _ _ _ _ _ _ (h _)]
        exact writeRegion_notin _ _ _ _ _ _ _ _ _ (hfill _)

/-- After the remainder path, every entry of the final partial tile that lies
strictly on the opposite triangular half within the rem-by-rem extent is
exactly zero: the remainder fill writes it to zero and the remainder trtri's
active-half domain never overwrites it. -/
theorem trsm_remainder_opposite_zero (NB : ℕ) (env : ℕ → rocblas_status)
    (uplo : rocblas_fill) (diag : rocblas_diagonal) (n : ℕ)
    (oA lda sA oI sI batch : ℕ) (stIn : GpuState) (opsIn : List TrsmOp)
    (hNB : 0 < NB)
    (hstr : oI + n / NB * NB * NB + NB * NB ≤ sI)
    (b : ℕ) (hb : b < batch) (i j : ℕ) (hi : i < n % NB) (hj : j < n % NB)
    (hopp : (match uplo with
      | rocblas_fill.lower => decide (i < j)
      | rocblas_fill.upper => decide (j < i)) = true) :
    (trsm_remainder NB env uplo diag n oA lda sA oI sI batch stIn opsIn).2.1.invA
      (b * sI + (n / NB * NB * NB + oI) + j * NB + i) = 0 := by
  have hmod : n - n / NB * NB = n % NB := by
    have h := Nat.div_add_mod n NB
    have h2 : NB * (n / NB) = n / NB * NB := Nat.mul_comm _ _
    omega
  have hremlt : n % NB < NB := Nat.mod_lt _ hNB
  have hbound : ∀ j' i' : ℕ, j' < n % NB → i' < n % NB →
      n / NB * NB * NB + oI + (j' * NB + i') < sI := by
    intro j' i' hj' hi'
    have h1 : j' * NB + i' < NB * NB := colrow_lt NB j' i' (by omega) (by omega)
    have h4 : n / NB * NB * NB + oI + (j' * NB + i')
        < n / NB * NB * NB + oI + NB * NB := by omega
    have h5 : n / NB * NB * NB + oI + NB * NB ≤ sI := by
      have h6 : n / NB * NB * NB + oI + NB * NB
          = oI + n / NB * NB * NB + NB * NB := by ring
      omega
    omega
  have hinner : ∀ k j' i' : ℕ, j' < n - n / NB * NB → i' < n - n / NB * NB →
      b * sI + (n / NB * NB * NB + oI) + j * NB + i
        = k * sI + (n / NB * NB * NB + oI) + j' * NB + i'
      → k = b ∧ j' = j ∧ i' = i := by
    intro k j' i' hj' hi' haddr
    have e1 : b * sI + (n / NB * NB * NB + oI) + j * NB + i
        = b * sI + (n / NB * NB * NB + oI + (j * NB + i)) := by ring
    have e2 : k * sI + (n / NB * NB * NB + oI) + j' * NB + i'
        = k * sI + (n / NB * NB * NB + oI + (j' * NB + i')) := by ring
    rw [e1, e2] at haddr
    obtain ⟨hbk, hrest⟩ := mulAddInj sI b _ k _ (hbound j i hj hi)
      (hbound j' i' (by omega) (by omega)) haddr
    obtain ⟨hjj, hii⟩ := mulAddInj NB j i j' i' (by omega) (by omega) (by omega)
    exact ⟨hbk.symm, hjj.symm, hii.symm⟩
  cases uplo
  case lower =>
    have hoppl : i < j := of_decide_eq_true hopp
    have htrtri : ∀ k, k < batch →
        regionMemb (k * sI + (n / NB * NB * NB + oI)) NB (n - n / NB * NB)
          (n - n / NB * NB) (fun i' j' => decide (j' ≤ i'))
          (b * sI + (n / NB * NB * NB + oI) + j * NB + i) = false := by
      intro k hk
      rw [Bool.eq_false_iff]
      intro hm
      rw [regionMemb_true_iff] at hm
      obtain ⟨j', hj', i', hi', hdom', haddr⟩ := hm
      obtain ⟨-, hjj, hii⟩ := hinner k j' i' hj' hi' haddr
      have : j' ≤ i' := of_decide_eq_true hdom'
      omega
    have hzero : ∀ buf : ℕ → ℚ,
        writeRegion buf (batch * 1)
          (fun k => (k / 1) * sI + (k % 1) * 0 + (n / NB * NB * NB + oI)) NB
          (n - n / NB * NB) (n - n / NB * NB) (fun i' j' => decide (i' < j'))
          (fun _ _ _ => 0) (b * sI + (n / NB * NB * NB + oI) + j * NB + i) = 0 := by
      intro buf
      refine writeRegion_zero _ _ _ _ _ _ _ _ ⟨b, by omega, ?_⟩
      rw [regionMemb_true_iff]
      refine ⟨j, by omega, i, by omega, by simpa using hoppl, ?_⟩
      simp [Nat.div_one, Nat.mod_one]
    unfold trsm_remainder rocblas_internal_trtri_template stage_fill
    dsimp only
    rw [if_neg (by omega : ¬ n - n / NB * NB = 0)]
    split
    · exact hzero _
    · split <;>
      · dsimp only
        rw [writeRegion_notin _ _ _ _ _ _ _ _ _ htrtri]
        exact hzero _
  case upper =>
    have hoppu : j < i := of_decide_eq_true hopp
    have htrtri : ∀ k, k < batch →
        regionMemb (k * sI + (n / NB * NB * NB + oI)) NB (n - n / NB * NB)
          (n - n / NB * NB) (fun i' j' => decide (i' ≤ j'))
          (b * sI + (n / NB * NB * NB + oI) + j * NB + i) = false := by
      intro k hk
      rw [Bool.eq_false_iff]
      intro hm
      rw [regionMemb_true_iff] at hm
      obtain ⟨j', hj', i', hi', hdom', haddr⟩ := hm
      obtain ⟨-, hjj, hii⟩ := hinner k j' i' hj' hi' haddr
      have : i' ≤ j' := of_decide_eq_true hdom'
      omega
    have hzero : ∀ buf : ℕ → ℚ,
        writeRegion buf (batch * 1)
          (fun k => (k / 1) * sI + (k % 1) * 0 + (n / NB * NB * NB + oI)) NB
          (n - n / NB * NB) (n - n / NB * NB) (fun i' j' => decide (j' < i'))
          (fun _ _ _ => 0) (b * sI + (n / NB * NB * NB + oI) + j * NB + i) = 0 := by
      intro buf
      refine writeRegion_zero _ _ _ _ _ _ _ _ ⟨b, by omega, ?_⟩
      rw [regionMemb_true_iff]
      refine ⟨j, by omega, i, by omega, by simpa using hoppu, ?_⟩
      simp [Nat.div_one, Nat.mod_one]
    unfold trsm_remainder rocblas_internal_trtri_template stage_fill
    dsimp only
    rw [if_neg (by omega : ¬ n - n / NB * NB = 0)]
    split
    · exact hzero _
    · split <;>
      · dsimp only
        rw [writeRegion_notin _ _ _ _ _ _ _ _ _ htrtri]
        exact hzero _

/-- The full-tile fill launch writes zero at every strictly-opposite-half
entry of every NB tile, for every batch entry. -/
theorem stage_fill_value_zero (fu : rocblas_fill) (NB : ℕ) (st : GpuState)
    (oI sI sub batch b t i j : ℕ)
    (hb : b < batch) (ht : t < sub) (hi : i < NB) (hj : j < NB)
    (hdom : (match fu with
      | rocblas_fill.upper => decide (i < j)
      | rocblas_fill.lower => decide (j < i)) = true) :
    (stage_fill fu NB NB (NB * NB) st oI sI sub batch).invA
      (b * sI + t * (NB * NB) + oI + j * NB + i) = 0 := by
  unfold stage_fill
  dsimp only
  refine writeRegion_zero _ _ _ _ _ _ _ _ ⟨b * sub + t, ?_, ?_⟩
  · have h2 : (b + 1) * sub ≤ batch * sub := Nat.mul_le_mul (by omega) (le_refl _)
    have h3 : (b + 1) * sub = b * sub + sub := by ring
    omega
  · rw [regionMemb_true_iff]
    refine ⟨j, hj, i, hi, hdom, ?_⟩
    rw [colrow_div sub b t ht, colrow_mod sub b t ht]

/-- C3 (amended): after a successful call with n > 0, every entry of a full
NB-by-NB tile of invA that lies strictly on the opposite triangular half is
exactly zero, and in the final partial tile (when n is not a multiple of NB)
every strictly-opposite-half entry within the rem-by-rem matrix extent is
exactly zero.  Entries of the partial tile beyond the rem-by-rem extent are
not covered: the code never writes them (see the counterexample). -/
theorem C3_amended_zero_padding (NB IB : ℕ) (env : ℕ → rocblas_status)
    (uplo : rocblas_fill) (diag : rocblas_diagonal) (n : ℕ) (st : GpuState)
    (oA lda sA oI sI batch : ℕ)
    (hNB : NB = 8 * IB) (hIB : 0 < IB)
    (henv : ∀ k, env k = rocblas_status.success)
    (hstr : oI + n / NB * NB * NB + NB * NB ≤ sI)
    (b : ℕ) (hb : b < batch) (i j : ℕ)
    (hopp : (match uplo with
      | rocblas_fill.lower => decide (i < j)
      | rocblas_fill.upper => decide (j < i)) = true) :
    (∀ t, t < n / NB → i < NB → j < NB →
      (rocblas_trtri_trsm_template NB env uplo diag n st
          oA lda sA oI sI batch).2.1.invA
        (b * sI + t * (NB * NB) + oI + j * NB + i) = 0)
    ∧ (n % NB ≠ 0 → i < n % NB → j < n % NB →
      (rocblas_trtri_trsm_template NB env uplo diag n st
          oA lda sA oI sI batch).2.1.invA
        (b * sI + (n / NB * NB * NB + oI) + j * NB + i) = 0) := by
  have hNB0 : 0 < NB := by omega
  have hIB8 : NB / 8 = IB := by omega
  have hmod : n - n / NB * NB = n % NB := by
    have h := Nat.div_add_mod n NB
    have h2 : NB * (n / NB) = n / NB * NB := Nat.mul_comm _ _
    omega
  have hmodlt : n % NB < NB := Nat.mod_lt _ hNB0
  have hstr2 : oI + n / NB * (NB * NB) + NB * NB ≤ sI := by
    have e : n / NB * (NB * NB) = n / NB * NB * NB := by ring
    omega
  constructor
  · intro t ht hi hj
    have hsub : ¬ n / NB = 0 := by omega
    have h0 : n ≠ 0 := by
      intro h
      rw [h] at hsub
      simp at hsub
    have hremnotin : ∀ (dom : ℕ → ℕ → Bool) (k : ℕ), k < batch →
        regionMemb (k * sI + (n / NB * NB * NB + oI)) NB (n - n / NB * NB)
          (n - n / NB * NB) dom (b * sI + t * (NB * NB) + oI + j * NB + i) = false := by
      intro dom k hk
      rw [Bool.eq_false_iff]
      intro hm
      rw [regionMemb_true_iff] at hm
      obtain ⟨j', hj', i', hi', -, haddr⟩ := hm
      have e1 : b * sI + t * (NB * NB) + oI + j * NB + i
          = b * sI + (oI + t * (NB * NB) + (j * NB + i)) := by ring
      have e2 : k * sI + (n / NB * NB * NB + oI) + j' * NB + i'
          = k * sI + (oI + n / NB * (NB * NB) + (j' * NB + i')) := by ring
      rw [e1, e2] at haddr
      have hc : j * NB + i < NB * NB := colrow_lt NB j i hi hj
      have hc' : j' * NB + i' < NB * NB := colrow_lt NB j' i' (by omega) (by omega)
      have hs : oI + (n / NB + 1) * (NB * NB) ≤ sI := by
        have e : (n / NB + 1) * (NB * NB) = n / NB * NB * NB + NB * NB := by ring
        omega
      obtain ⟨-, htt, -⟩ := tileAddrInj sI oI (NB * NB) (n / NB + 1) b k t (n / NB)
        (j * NB + i) (j' * NB + i') hs (by omega) (by omega) hc hc' haddr
      omega
    unfold rocblas_trtri_trsm_template
    dsimp only
    rw [if_neg h0, if_neg hsub, if_neg (by simp [henv 0]), if_neg (by simp [henv 1])]
    simp only [hIB8]
    rw [trsm_remainder_invA_notin _ _ _ _ _ _ _ _ _ _ _ _ _ _ hremnotin]
    rw [rocblas_trtri_gemm_block_invA_notin _ _ _ _ _ _ _ _ _ _ _ _ _ _ _ _ _ _ _ _ _ _
      (gemm_dest_avoids_opposite NB IB hNB hIB uplo 2 (by omega) sI oI (n / NB) batch
        b t i j hstr2 ht hi hj hopp)]
    rw [rocblas_trtri_gemm_block_invA_notin _ _ _ _ _ _ _ _ _ _ _ _ _ _ _ _ _ _ _ _ _ _
      (gemm_dest_avoids_opposite NB IB hNB hIB uplo 1 (by omega) sI oI (n / NB) batch
        b t i j hstr2 ht hi hj hopp)]
    rw [rocblas_trtri_gemm_block_invA_notin _ _ _ _ _ _ _ _ _ _ _ _ _ _ _ _ _ _ _ _ _ _
      (gemm_dest_avoids_opposite NB IB hNB hIB uplo 0 (by omega) sI oI (n / NB) batch
        b t i j hstr2 ht hi hj hopp)]
    exact stage_fill_value_zero _ NB _ oI sI (n / NB) batch b t i j hb ht hi hj
      (by cases uplo <;> exact hopp)
  · intro hrem hi hj
    have h0 : n ≠ 0 := by
      intro h
      exact hrem (by simp [h])
    unfold rocblas_trtri_trsm_template
    dsimp only
    by_cases hsub : n / NB = 0
    · rw [if_neg h0, if_pos hsub]
      exact trsm_remainder_opposite_zero NB env uplo diag n oA lda sA oI sI batch st []
        hNB0 hstr b hb i j hi hj hopp
    · rw [if_neg h0, if_neg hsub, if_neg (by simp [henv 0]), if_neg (by simp [henv 1])]
      exact trsm_remainder_opposite_zero NB env uplo diag n oA lda sA oI sI batch _ _
        hNB0 hstr b hb i j hi hj hopp

/-- Witness for the amended C3 theorem at NB = 8, IB = 1, n = 11, lower, one
batch entry: entry (0, 1) of the full tile (address 8) and entry (0, 1) of
the partial tile (address 72) are both zero after the call. -/
theorem C3_amended_zero_padding_witness :
    ((8 : ℕ) = 8 * 1) ∧ (0 : ℕ) < 1
      ∧ (∀ k, envAllSuccess k = rocblas_status.success)
      ∧ ((0 : ℕ) + 11 / 8 * 8 * 8 + 8 * 8 ≤ 128)
      ∧ (rocblas_trtri_trsm_template 8 envAllSuccess rocblas_fill.lower
          rocblas_diagonal.non_unit 11 sampleN11State 0 11 200 0 128 1).2.1.invA 8 = 0
      ∧ (rocblas_trtri_trsm_template 8 envAllSuccess rocblas_fill.lower
          rocblas_diagonal.non_unit 11 sampleN11State 0 11 200 0 128 1).2.1.invA 72
          = 0 :=
  ⟨rfl, by decide, fun _ => rfl, by decide,
   (C3_amended_zero_padding 8 1 envAllSuccess rocblas_fill.lower
      rocblas_diagonal.non_unit 11 sampleN11State 0 11 200 0 128 1 rfl (by decide)
      (fun _ => rfl) (by decide) 0 (by decide) 0 1 (by decide)).1
     0 (by decide) (by decide) (by decide),
   (C3_amended_zero_padding 8 1 envAllSuccess rocblas_fill.lower
      rocblas_diagonal.non_unit 11 sampleN11State 0 11 200 0 128 1 rfl (by decide)
      (fun _ => rfl) (by decide) 0 (by decide) 0 1 (by decide)).2
     (by decide) (by decide) (by decide)⟩

/-! ### C1: the off-diagonal combination identity -/

/-- Diagonal position of the upper-left sub-block of the pair combined at each
level, per the spec's description of the doubling: the two size-2·IB calls
treat the half-tile groups based at 0 and 4·IB on the diagonal, and the
size-4·IB call treats the whole tile, based at 0. -/
def trsm_level_group (IB : ℕ) : ℕ → ℕ
  | 0 => 0
  | 1 => IB * 4
  | _ => 0

theorem gemm_dest_val_congr (S i j : ℕ) (A2 A2' M M' A1 A1' : ℕ → ℕ → ℚ)
    (h2 : ∀ l, l < S → A2 i l = A2' i l)
    (hM : ∀ l p, l < S → p < S → M l p = M' l p)
    (h1 : ∀ p, p < S → A1 p j = A1' p j) :
    gemm_dest_val S S A2 M A1 i j = gemm_dest_val S S A2' M' A1' i j := by
  unfold gemm_dest_val
  congr 1
  apply Finset.sum_congr rfl
  intro l hl
  rw [Finset.mem_range] at hl
  rw [h2 l hl]
  congr 1
  apply Finset.sum_congr rfl
  intro p hp
  rw [Finset.mem_range] at hp
  rw [hM l p hl hp, h1 p hp]

theorem gemm_block_value_lower (NB : ℕ) (e2 : rocblas_status) (st : GpuState)
    (lda sA oA oI sI batch sub g S ldC ssC : ℕ)
    (hstr : oI + sub * (NB * NB) + NB * NB ≤ sI)
    (hg : g + 2 * S ≤ NB) (hS : 0 < S)
    (b sb i j : ℕ) (hb : b < batch) (hsb : sb < sub) (hi : i < S) (hj : j < S) :
    (rocblas_trtri_gemm_block rocblas_status.success e2 S S st lda sA (NB * lda + NB)
        NB sI (NB * NB) ldC 0 ssC batch sub
        (oA + (g * lda + (g + S))) (oI + (g * NB + g))
        (oI + ((g + S) * NB + (g + S))) (oI + (g * NB + (g + S))) 0).2.1.invA
      (b * sI + sb * (NB * NB) + oI + (g + j) * NB + (g + S + i))
    = -(∑ l in Finset.range S,
        st.invA (b * sI + sb * (NB * NB) + oI + (g + S + l) * NB + (g + S + i))
          * (∑ p in Finset.range S,
              st.a (b * sA + sb * (NB * lda + NB) + oA + (g + p) * lda + (g + S + l))
                * st.invA (b * sI + sb * (NB * NB) + oI + (g + j) * NB + (g + p)))) := by
  have hcount : b * sub + sb < batch * sub := by
    have h2 : (b + 1) * sub ≤ batch * sub := Nat.mul_le_mul (by omega) (le_refl _)
    have h3 : (b + 1) * sub = b * sub + sub := by ring
    omega
  have haddr : b * sI + sb * (NB * NB) + oI + (g + j) * NB + (g + S + i)
      = ((b * sub + sb) / sub) * sI + ((b * sub + sb) % sub) * (NB * NB)
          + (oI + (g * NB + (g + S))) + j * NB + i := by
    rw [colrow_div sub b sb hsb, colrow_mod sub b sb hsb]
    ring
  have huniq : ∀ k, k < batch * sub →
      regionMemb ((k / sub) * sI + (k % sub) * (NB * NB) + (oI + (g * NB + (g + S))))
        NB S S (fun _ _ => true)
        (((b * sub + sb) / sub) * sI + ((b * sub + sb) % sub) * (NB * NB)
          + (oI + (g * NB + (g + S))) + j * NB + i) = true
      → k = b * sub + sb := by
    intro k hk hm
    rw [← haddr] at hm
    obtain ⟨hbb, htt, -⟩ := tile_block_memb_bounds NB g (g + S) S sI oI sub b sb
      (g + S + i) (g + j) k (g * NB + (g + S)) (by ring) hstr hsb (by omega) (by omega)
      (by omega) (by omega) hm
    have hdm := Nat.div_add_mod k sub
    have e : sub * (k / sub) = k / sub * sub := Nat.mul_comm _ _
    have e2 : b * sub = k / sub * sub := by rw [← hbb]
    omega
  unfold rocblas_trtri_gemm_block
  dsimp only
  rw [if_neg (by simp)]
  dsimp only
  rw [haddr]
  rw [writeRegion_value _ (batch * sub)
    (fun k => (k / sub) * sI + (k % sub) * (NB * NB) + (oI + (g * NB + (g + S))))
    NB S S (fun _ _ => true) _ (b * sub + sb) i j hcount hi hj rfl (by omega) huniq]
  refine gemm_dest_val_congr S i j _
    (fun r c => st.invA (b * sI + sb * (NB * NB) + oI + (g + S + c) * NB + (g + S + r)))
    _ (fun r c => st.a (b * sA + sb * (NB * lda + NB) + oA + (g + c) * lda + (g + S + r)))
    _ (fun r c => st.invA (b * sI + sb * (NB * NB) + oI + (g + c) * NB + (g + r)))
    ?_ ?_ ?_
  · intro l hl
    rw [colrow_div sub b sb hsb, colrow_mod sub b sb hsb]
    exact congrArg st.invA (by ring)
  · intro l p hl hp
    rw [colrow_div sub b sb hsb, colrow_mod sub b sb hsb]
    exact congrArg st.a (by ring)
  · intro p hp
    rw [colrow_div sub b sb hsb, colrow_mod sub b sb hsb]
    exact congrArg st.invA (by ring)

theorem gemm_block_value_upper (NB : ℕ) (e2 : rocblas_status) (st : GpuState)
    (lda sA oA oI sI batch sub g S ldC ssC : ℕ)
    (hstr : oI + sub * (NB * NB) + NB * NB ≤ sI)
    (hg : g + 2 * S ≤ NB) (hS : 0 < S)
    (b sb i j : ℕ) (hb : b < batch) (hsb : sb < sub) (hi : i < S) (hj : j < S) :
    (rocblas_trtri_gemm_block rocblas_status.success e2 S S st lda sA (NB * lda + NB)
        NB sI (NB * NB) ldC 0 ssC batch sub
        (oA + ((g + S) * lda + g)) (oI + ((g + S) * NB + (g + S)))
        (oI + (g * NB + g)) (oI + ((g + S) * NB + g)) 0).2.1.invA
      (b * sI + sb * (NB * NB) + oI + (g + S + j) * NB + (g + i))
    = -(∑ l in Finset.range S,
        st.invA (b * sI + sb * (NB * NB) + oI + (g + l) * NB + (g + i))
          * (∑ p in Finset.range S,
              st.a (b * sA + sb * (NB * lda + NB) + oA + (g + S + p) * lda + (g + l))
                * st.invA (b * sI + sb * (NB * NB) + oI
                    + (g + S + j) * NB + (g + S + p)))) := by
  have hcount : b * sub + sb < batch * sub := by
    have h2 : (b + 1) * sub ≤ batch * sub := Nat.mul_le_mul (by omega) (le_refl _)
    have h3 : (b + 1) * sub = b * sub + sub := by ring
    omega
  have haddr : b * sI + sb * (NB * NB) + oI + (g + S + j) * NB + (g + i)
      = ((b * sub + sb) / sub) * sI + ((b * sub + sb) % sub) * (NB * NB)
          + (oI + ((g + S) * NB + g)) + j * NB + i := by
    rw [colrow_div sub b sb hsb, colrow_mod sub b sb hsb]
    ring
  have huniq : ∀ k, k < batch * sub →
      regionMemb ((k / sub) * sI + (k % sub) * (NB * NB) + (oI + ((g + S) * NB + g)))
        NB S S (fun _ _ => true)
        (((b * sub + sb) / sub) * sI + ((b * sub + sb) % sub) * (NB * NB)
          + (oI + ((g + S) * NB + g)) + j * NB + i) = true
      → k = b * sub + sb := by
    intro k hk hm
    rw [← haddr] at hm
    obtain ⟨hbb, htt, -⟩ := tile_block_memb_bounds NB (g + S) g S sI oI sub b sb
      (g + i) (g + S + j) k ((g + S) * NB + g) (by ring) hstr hsb (by omega) (by omega)
      (by omega) (by omega) hm
    have hdm := Nat.div_add_mod k sub
    have e : sub * (k / sub) = k / sub * sub := Nat.mul_comm _ _
    have e2 : b * sub = k / sub * sub := by rw [← hbb]
    omega
  unfold rocblas_trtri_gemm_block
  dsimp only
  rw [if_neg (by simp)]
  dsimp only
  rw [haddr]
  rw [writeRegion_value _ (batch * sub)
    (fun k => (k / sub) * sI + (k % sub) * (NB * NB) + (oI + ((g + S) * NB + g)))
    NB S S (fun _ _ => true) _ (b * sub + sb) i j hcount hi hj rfl (by omega) huniq]
  refine gemm_dest_val_congr S i j _
    (fun r c => st.invA (b * sI + sb * (NB * NB) + oI + (g + c) * NB + (g + r)))
    _ (fun r c => st.a (b * sA + sb * (NB * lda + NB) + oA
        + (g + S + c) * lda + (g + r)))
    _ (fun r c => st.invA (b * sI + sb * (NB * NB) + oI + (g + S + c) * NB + (g + S + r)))
    ?_ ?_ ?_
  · intro l hl
    rw [colrow_div sub b sb hsb, colrow_mod sub b sb hsb]
    exact congrArg st.invA (by ring)
  · intro l p hl hp
    rw [colrow_div sub b sb hsb, colrow_mod sub b sb hsb]
    exact congrArg st.a (by ring)
  · intro p hp
    rw [colrow_div sub b sb hsb, colrow_mod sub b sb hsb]
    exact congrArg st.invA (by ring)

theorem trsm_gemm_offsets_lower (IB NB lda : ℕ) (lv : ℕ) (hlv : lv < 3) :
    trsm_gemm_offset_A rocblas_fill.lower IB lda lv
        = trsm_level_group IB lv * lda
            + (trsm_level_group IB lv + trsm_gemm_size IB lv)
      ∧ trsm_gemm_offset_invA1 rocblas_fill.lower IB NB lv
        = trsm_level_group IB lv * NB + trsm_level_group IB lv
      ∧ trsm_gemm_offset_invA2 rocblas_fill.lower IB NB lv
        = (trsm_level_group IB lv + trsm_gemm_size IB lv) * NB
            + (trsm_level_group IB lv + trsm_gemm_size IB lv)
      ∧ trsm_gemm_offset_invA3 rocblas_fill.lower IB NB lv
        = trsm_level_group IB lv * NB
            + (trsm_level_group IB lv + trsm_gemm_size IB lv) := by
  interval_cases lv <;>
    exact ⟨by simp only [trsm_gemm_offset_A, trsm_level_group, trsm_gemm_size, eq_self_iff_true, ite_true, if_true]; try ring,
           by simp only [trsm_gemm_offset_invA1, trsm_level_group, trsm_gemm_size, eq_self_iff_true, ite_true, if_true]; try ring,
           by simp only [trsm_gemm_offset_invA2, trsm_level_group, trsm_gemm_size, eq_self_iff_true, ite_true, if_true]; try ring,
           by simp only [trsm_gemm_offset_invA3, trsm_level_group, trsm_gemm_size, eq_self_iff_true, ite_true, if_true]; try ring⟩

theorem trsm_gemm_offsets_upper (IB NB lda : ℕ) (lv : ℕ) (hlv : lv < 3) :
    trsm_gemm_offset_A rocblas_fill.upper IB lda lv
        = (trsm_level_group IB lv + trsm_gemm_size IB lv) * lda
            + trsm_level_group IB lv
      ∧ trsm_gemm_offset_invA1 rocblas_fill.upper IB NB lv
        = (trsm_level_group IB lv + trsm_gemm_size IB lv) * NB
            + (trsm_level_group IB lv + trsm_gemm_size IB lv)
      ∧ trsm_gemm_offset_invA2 rocblas_fill.upper IB NB lv
        = trsm_level_group IB lv * NB + trsm_level_group IB lv
      ∧ trsm_gemm_offset_invA3 rocblas_fill.upper IB NB lv
        = (trsm_level_group IB lv + trsm_gemm_size IB lv) * NB
            + trsm_level_group IB lv := by
  interval_cases lv <;>
    exact ⟨by simp only [trsm_gemm_offset_A, trsm_level_group, trsm_gemm_size, reduceCtorEq, ite_false, if_false]; try ring,
           by simp only [trsm_gemm_offset_invA1, trsm_level_group, trsm_gemm_size, reduceCtorEq, ite_false, if_false]; try ring,
           by simp only [trsm_gemm_offset_invA2, trsm_level_group, trsm_gemm_size, reduceCtorEq, ite_false, if_false]; try ring,
           by simp only [trsm_gemm_offset_invA3, trsm_level_group, trsm_gemm_size, reduceCtorEq, ite_false, if_false]; try ring⟩

theorem trsm_level_bounds (IB NB : ℕ) (hNB : NB = 8 * IB) (hIB : 0 < IB) (lv : ℕ)
    (hlv : lv < 3) :
    trsm_level_group IB lv + 2 * trsm_gemm_size IB lv ≤ NB
      ∧ 0 < trsm_gemm_size IB lv := by
  interval_cases lv <;>
    exact ⟨by simp only [trsm_level_group, trsm_gemm_size]; omega,
      by simp only [trsm_gemm_size]; omega⟩

/-- C1: for every combination level and every block pair, the off-diagonal
block written by the GEMM combination step — the helper invoked with exactly
the sizes, strides and offsets the driver computes from uplo — satisfies the
triangular-inverse identity: in lower mode the block at tile position
(g+S..g+2S, g..g+S) receives -invA22 · A21 · invA11, and in upper mode the
block at (g..g+S, g+S..g+2S) receives -invA11 · A12 · invA22, where g and S
are the level's group base and block size, invA11 and invA22 are the contents
of invA at the two diagonal sub-block positions before the call, and A21
(resp. A12) is the off-diagonal source block of A at the offsets the driver
computes. -/
theorem C1_gemm_combination_identity (NB IB : ℕ) (e2 : rocblas_status)
    (uplo : rocblas_fill) (lv : ℕ) (st : GpuState)
    (lda sA oA oI sI batch sub : ℕ)
    (hNB : NB = 8 * IB) (hIB : 0 < IB) (hlv : lv < 3)
    (hstr : oI + sub * (NB * NB) + NB * NB ≤ sI)
    (b sb i j : ℕ) (hb : b < batch) (hsb : sb < sub)
    (hi : i < trsm_gemm_size IB lv) (hj : j < trsm_gemm_size IB lv) :
    match uplo with
    | rocblas_fill.lower =>
      (rocblas_trtri_gemm_block rocblas_status.success e2 (trsm_gemm_size IB lv)
          (trsm_gemm_size IB lv) st lda sA (NB * lda + NB) NB sI (NB * NB)
          (IB * 4) 0 (IB * 4 * (IB * 4)) batch sub
          (oA + trsm_gemm_offset_A rocblas_fill.lower IB lda lv)
          (oI + trsm_gemm_offset_invA1 rocblas_fill.lower IB NB lv)
          (oI + trsm_gemm_offset_invA2 rocblas_fill.lower IB NB lv)
          (oI + trsm_gemm_offset_invA3 rocblas_fill.lower IB NB lv) 0).2.1.invA
        (b * sI + sb * (NB * NB) + oI + (trsm_level_group IB lv + j) * NB
          + (trsm_level_group IB lv + trsm_gemm_size IB lv + i))
      = -(∑ l in Finset.range (trsm_gemm_size IB lv),
          st.invA (b * sI + sb * (NB * NB) + oI
              + (trsm_level_group IB lv + trsm_gemm_size IB lv + l) * NB
              + (trsm_level_group IB lv + trsm_gemm_size IB lv + i))
            * (∑ p in Finset.range (trsm_gemm_size IB lv),
                st.a (b * sA + sb * (NB * lda + NB) + oA
                    + (trsm_level_group IB lv + p) * lda
                    + (trsm_level_group IB lv + trsm_gemm_size IB lv + l))
                  * st.invA (b * sI + sb * (NB * NB) + oI
                      + (trsm_level_group IB lv + j) * NB
                      + (trsm_level_group IB lv + p))))
    | rocblas_fill.upper =>
      (rocblas_trtri_gemm_block rocblas_status.success e2 (trsm_gemm_size IB lv)
          (trsm_gemm_size IB lv) st lda sA (NB * lda + NB) NB sI (NB * NB)
          (IB * 4) 0 (IB * 4 * (IB * 4)) batch sub
          (oA + trsm_gemm_offset_A rocblas_fill.upper IB lda lv)
          (oI + trsm_gemm_offset_invA1 rocblas_fill.upper IB NB lv)
          (oI + trsm_gemm_offset_invA2 rocblas_fill.upper IB NB lv)
          (oI + trsm_gemm_offset_invA3 rocblas_fill.upper IB NB lv) 0).2.1.invA
        (b * sI + sb * (NB * NB) + oI
          + (trsm_level_group IB lv + trsm_gemm_size IB lv + j) * NB
          + (trsm_level_group IB lv + i))
      = -(∑ l in Finset.range (trsm_gemm_size IB lv),
          st.invA (b * sI + sb * (NB * NB) + oI + (trsm_level_group IB lv + l) * NB
              + (trsm_level_group IB lv + i))
            * (∑ p in Finset.range (trsm_gemm_size IB lv),
                st.a (b * sA + sb * (NB * lda + NB) + oA
                    + (trsm_level_group IB lv + trsm_gemm_size IB lv + p) * lda
                    + (trsm_level_group IB lv + l))
                  * st.invA (b * sI + sb * (NB * NB) + oI
                      + (trsm_level_group IB lv + trsm_gemm_size IB lv + j) * NB
                      + (trsm_level_group IB lv + trsm_gemm_size IB lv + p)))) := by
  obtain ⟨hgS, hS⟩ := trsm_level_bounds IB NB hNB hIB lv hlv
  cases uplo
  case lower =>
    obtain ⟨hA, h1, h2, h3⟩ := trsm_gemm_offsets_lower IB NB lda lv hlv
    dsimp only
    rw [hA, h1, h2, h3]
    exact gemm_block_value_lower NB e2 st lda sA oA oI sI batch sub
      (trsm_level_group IB lv) (trsm_gemm_size IB lv) (IB * 4) (IB * 4 * (IB * 4))
      hstr hgS hS b sb i j hb hsb hi hj
  case upper =>
    obtain ⟨hA, h1, h2, h3⟩ := trsm_gemm_offsets_upper IB NB lda lv hlv
    dsimp only
    rw [hA, h1, h2, h3]
    exact gemm_block_value_upper NB e2 st lda sA oA oI sI batch sub
      (trsm_level_group IB lv) (trsm_gemm_size IB lv) (IB * 4) (IB * 4 * (IB * 4))
      hstr hgS hS b sb i j hb hsb hi hj

/-- Witness for C1 at NB = 8, IB = 1, level 0, lower mode, one batch entry and
one tile, entry (0, 0) of the off-diagonal block. -/
theorem C1_gemm_combination_identity_witness :
    ((8 : ℕ) = 8 * 1) ∧ ((0 : ℕ) < 1) ∧ ((0 : ℕ) < 3)
      ∧ ((0 : ℕ) + 1 * (8 * 8) + 8 * 8 ≤ 128)
      ∧ ((0 : ℕ) < trsm_gemm_size 1 0)
      ∧ ((rocblas_trtri_gemm_block rocblas_status.success rocblas_status.success
            (trsm_gemm_size 1 0) (trsm_gemm_size 1 0) sampleLowerState 8 64 (8 * 8 + 8)
            8 128 (8 * 8) (1 * 4) 0 (1 * 4 * (1 * 4)) 1 1
            (0 + trsm_gemm_offset_A rocblas_fill.lower 1 8 0)
            (0 + trsm_gemm_offset_invA1 rocblas_fill.lower 1 8 0)
            (0 + trsm_gemm_offset_invA2 rocblas_fill.lower 1 8 0)
            (0 + trsm_gemm_offset_invA3 rocblas_fill.lower 1 8 0) 0).2.1.invA
          (0 * 128 + 0 * (8 * 8) + 0 + (trsm_level_group 1 0 + 0) * 8
            + (trsm_level_group 1 0 + trsm_gemm_size 1 0 + 0))
        = -(∑ l in Finset.range (trsm_gemm_size 1 0),
            sampleLowerState.invA (0 * 128 + 0 * (8 * 8) + 0
                + (trsm_level_group 1 0 + trsm_gemm_size 1 0 + l) * 8
                + (trsm_level_group 1 0 + trsm_gemm_size 1 0 + 0))
              * (∑ p in Finset.range (trsm_gemm_size 1 0),
                  sampleLowerState.a (0 * 64 + 0 * (8 * 8 + 8) + 0
                      + (trsm_level_group 1 0 + p) * 8
                      + (trsm_level_group 1 0 + trsm_gemm_size 1 0 + l))
                    * sampleLowerState.invA (0 * 128 + 0 * (8 * 8) + 0
                        + (trsm_level_group 1 0 + 0) * 8
                        + (trsm_level_group 1 0 + p))))) :=
  ⟨rfl, by decide, by decide, by decide, by decide,
   C1_gemm_combination_identity 8 1 rocblas_status.success rocblas_fill.lower 0
     sampleLowerState 8 64 0 0 128 1 1 rfl (by decide) (by decide) (by decide)
     0 0 0 0 (by decide) (by decide) (by decide) (by decide)⟩


/-! ### Batch-slice toolkit -/

theorem regionMemb_shift (c base ld nn mm : ℕ) (dom : ℕ → ℕ → Bool) (w : ℕ) :
    regionMemb (c + base) ld nn mm dom (c + w) = regionMemb base ld nn mm dom w := by
  unfold regionMemb
  rw [decide_eq_decide]
  constructor
  · rintro ⟨j, hj, i, hi, hdom, he⟩
    exact ⟨j, hj, i, hi, hdom, by omega⟩
  · rintro ⟨j, hj, i, hi, hdom, he⟩
    exact ⟨j, hj, i, hi, hdom, by omega⟩

theorem find?_congr_list (l : List ℕ) (p q : ℕ → Bool) (h : ∀ x ∈ l, p x = q x) :
    l.find? p = l.find? q := by
  induction l with
  | nil => rfl
  | cons a t ih =>
    have ha := h a (List.mem_cons_self a t)
    by_cases hp : p a = true
    · rw [List.find?_cons_of_pos t hp, List.find?_cons_of_pos t (ha ▸ hp)]
    · have hq : ¬ q a = true := by rw [← ha]; exact hp
      rw [List.find?_cons_of_neg t (by simpa using hp),
        List.find?_cons_of_neg t (by simpa using hq)]
      exact ih fun x hx => h x (List.mem_cons_of_mem a hx)

theorem find?_range_shift (batch inner b : ℕ) (p q : ℕ → Bool)
    (hb : b < batch) (hinner : 0 < inner)
    (hout : ∀ k, k < batch * inner → p k = true → k / inner = b)
    (hagree : ∀ r, r < inner → p (b * inner + r) = q r) :
    (List.range (batch * inner)).find? p
      = ((List.range inner).find? q).map (fun r => b * inner + r) := by
  have hsplit : batch * inner = b * inner + (inner + (batch - b - 1) * inner) := by
    have hbatch : batch = b + 1 + (batch - b - 1) := by omega
    calc batch * inner = (b + 1 + (batch - b - 1)) * inner := by rw [← hbatch]
      _ = b * inner + (inner + (batch - b - 1) * inner) := by ring
  rw [hsplit, List.range_add, List.find?_append]
  have h1 : (List.range (b * inner)).find? p = none := by
    rw [List.find?_eq_none]
    intro k hk
    simp only [List.mem_range] at hk
    intro hpk
    have hkb : k < batch * inner := by
      have : b * inner ≤ batch * inner := Nat.mul_le_mul_right inner (le_of_lt hb)
      omega
    have hd := hout k hkb hpk
    have hlt : k / inner < b := (Nat.div_lt_iff_lt_mul hinner).mpr hk
    omega
  rw [h1]
  rw [List.find?_map, List.range_add, List.find?_append]
  have h2 : (List.range inner).find? (p ∘ fun r => b * inner + r)
      = (List.range inner).find? q := by
    apply find?_congr_list
    intro x hx
    simp only [List.mem_range] at hx
    simpa using hagree x hx
  have h3 : (List.range ((batch - b - 1) * inner)).find?
      ((p ∘ fun r => b * inner + r) ∘ fun r => inner + r) = none := by
    rw [List.find?_eq_none]
    intro r hr
    simp only [List.mem_range] at hr
    intro hpr
    simp only [Function.comp] at hpr
    have hklt : b * inner + (inner + r) < batch * inner := by omega
    have hd := hout (b * inner + (inner + r)) hklt hpr
    have hge : (b + 1) * inner ≤ b * inner + (inner + r) := by
      have : (b + 1) * inner = b * inner + inner := by ring
      omega
    have : b + 1 ≤ (b * inner + (inner + r)) / inner :=
      (Nat.le_div_iff_mul_le hinner).mpr hge
    omega
  rw [h2, List.find?_map, h3]
  simp

theorem writeRegion_slice (buf : ℕ → ℚ) (count batch inner stride : ℕ)
    (base : ℕ → ℕ) (baseIn : ℕ → ℕ) (ld nn mm : ℕ)
    (dom : ℕ → ℕ → Bool) (v : ℕ → ℕ → ℕ → ℚ) (b w addr : ℕ)
    (hcount : count = batch * inner) (hinner : 0 < inner)
    (hb : b < batch) (hw : w < stride)
    (haddr : addr = b * stride + w)
    (hbase : ∀ k, base k = k / inner * stride + baseIn (k % inner))
    (hbound : ∀ r, r < inner → ∀ jj, jj < mm → ∀ ii, ii < nn →
        baseIn r + jj * ld + ii < stride) :
    writeRegion buf count base ld nn mm dom v addr
      = writeRegion (fun x => buf (b * stride + x)) inner baseIn ld nn mm dom
          (fun r => v (b * inner + r)) w := by
  subst hcount; subst haddr
  unfold writeRegion
  have hfind : (List.range (batch * inner)).find?
        (fun k => regionMemb (base k) ld nn mm dom (b * stride + w))
      = ((List.range inner).find?
          (fun r => regionMemb (baseIn r) ld nn mm dom w)).map
          (fun r => b * inner + r) := by
    apply find?_range_shift batch inner b _ _ hb hinner
    · intro k hk hpk
      rw [regionMemb_true_iff] at hpk
      obtain ⟨j, hj, i, hi, hdom, he⟩ := hpk
      rw [hbase k] at he
      have hin : baseIn (k % inner) + j * ld + i < stride :=
        hbound (k % inner) (Nat.mod_lt _ hinner) j hj i hi
      have he2 : b * stride + w
          = k / inner * stride + (baseIn (k % inner) + j * ld + i) := by omega
      exact (mulAddInj stride b w (k / inner) _ hw hin he2).1.symm
    · intro r hr
      have h1 : base (b * inner + r) = b * stride + baseIn r := by
        rw [hbase, colrow_div inner b r hr, colrow_mod inner b r hr]
      rw [h1]
      exact regionMemb_shift (b * stride) (baseIn r) ld nn mm dom w
  rw [hfind]
  cases hq : (List.range inner).find? (fun r => regionMemb (baseIn r) ld nn mm dom w) with
  | none => rfl
  | some r =>
    have hr : r < inner := by simpa using List.mem_of_find?_eq_some hq
    have h1 : base (b * inner + r) = b * stride + baseIn r := by
      rw [hbase, colrow_div inner b r hr, colrow_mod inner b r hr]
    rw [show Option.map (fun r => b * inner + r) (some r) = some (b * inner + r) from rfl]
    dsimp only
    rw [h1]
    have h2 : b * stride + w - (b * stride + baseIn r) = w - baseIn r := by omega
    rw [h2]

theorem writeRegion_congr (buf buf' : ℕ → ℚ) (count : ℕ) (base : ℕ → ℕ)
    (ld nn mm : ℕ) (dom : ℕ → ℕ → Bool) (v v' : ℕ → ℕ → ℕ → ℚ) (w : ℕ)
    (hld : nn ≤ ld)
    (hbuf : buf w = buf' w)
    (hv : ∀ r, r < count → ∀ ii, ii < nn → ∀ jj, jj < mm → v r ii jj = v' r ii jj) :
    writeRegion buf count base ld nn mm dom v w
      = writeRegion buf' count base ld nn mm dom v' w := by
  unfold writeRegion
  cases hf : (List.range count).find? (fun k => regionMemb (base k) ld nn mm dom w) with
  | none => exact hbuf
  | some k =>
    have hk : k < count := by simpa using List.mem_of_find?_eq_some hf
    have hp : regionMemb (base k) ld nn mm dom w = true := by
      simpa using List.find?_some hf
    rw [regionMemb_true_iff] at hp
    obtain ⟨j, hj, i, hi, hdom, he⟩ := hp
    dsimp only
    have hsub : w - base k = j * ld + i := by omega
    rw [hsub, colrow_mod ld j i (lt_of_lt_of_le hi hld),
      colrow_div ld j i (lt_of_lt_of_le hi hld)]
    exact hv k hk i hi j hj

/-- Batch-slice relation between a multi-batch state and a single-batch state:
batch entry `b`'s window of A (from its batch base onward) and batch entry
`b`'s invA slice coincide with the single-batch buffers. -/
def SliceRel (b sA sI : ℕ) (st st' : GpuState) : Prop :=
  (∀ x, st.a (b * sA + x) = st'.a x)
    ∧ (∀ y, y < sI → st.invA (b * sI + y) = st'.invA y)

theorem stage_trtri_kernel_slice (NB IB sub : ℕ) (uplo : rocblas_fill)
    (diag : rocblas_diagonal) (st st' : GpuState)
    (oA lda sA oI sI gridX batch b : ℕ)
    (hNB : NB = 8 * IB) (hb : b < batch) (hgrid : 0 < gridX)
    (hgX : gridX ≤ sub * 4) (hstr : oI + sub * NB * NB + NB * NB ≤ sI)
    (hR : SliceRel b sA sI st st') :
    SliceRel b sA sI
      (stage_trtri_kernel NB IB 8 uplo diag st oA lda sA oI sI gridX batch)
      (stage_trtri_kernel NB IB 8 uplo diag st' oA lda sA oI sI gridX 1) := by
  obtain ⟨hA, hI⟩ := hR
  constructor
  · exact hA
  · intro w hw
    have hbase : ∀ k : ℕ,
        k / gridX * sI + 2 * (k % gridX) / 8 * (NB * NB)
            + 2 * (k % gridX) % 8 * (IB * NB + IB) + oI
          = k / gridX * sI + (2 * (k % gridX) / 8 * (NB * NB)
              + 2 * (k % gridX) % 8 * (IB * NB + IB) + oI) := fun k => by ring
    have hbound : ∀ r, r < gridX → ∀ jj, jj < 2 * IB → ∀ ii, ii < 2 * IB →
        2 * r / 8 * (NB * NB) + 2 * r % 8 * (IB * NB + IB) + oI + jj * NB + ii < sI := by
      intro r hr jj hjj ii hii
      have hq : 2 * r % 8 ≤ 6 := by omega
      have hd : 2 * r / 8 < sub := by omega
      have h1 : 2 * r % 8 * (IB * NB + IB) + jj * NB + ii
          = (2 * r % 8 * IB + jj) * NB + (2 * r % 8 * IB + ii) := by ring
      have h2 : 2 * r % 8 * IB ≤ 6 * IB := Nat.mul_le_mul_right IB hq
      have h3 : 2 * r % 8 * IB + jj < NB := by omega
      have h4 : 2 * r % 8 * IB + ii < NB := by omega
      have h5 : (2 * r % 8 * IB + jj) * NB + (2 * r % 8 * IB + ii) < NB * NB :=
        colrow_lt NB _ _ h4 h3
      have h6 : (2 * r / 8 + 1) * (NB * NB) ≤ sub * (NB * NB) :=
        Nat.mul_le_mul_right _ (by omega)
      have h7 : (2 * r / 8 + 1) * (NB * NB) = 2 * r / 8 * (NB * NB) + NB * NB := by ring
      have h8 : sub * (NB * NB) = sub * NB * NB := by ring
      omega
    unfold stage_trtri_kernel
    dsimp only
    rw [writeRegion_slice st.invA (batch * gridX) batch gridX sI
        (fun k => k / gridX * sI + 2 * (k % gridX) / 8 * (NB * NB)
          + 2 * (k % gridX) % 8 * (IB * NB + IB) + oI)
        (fun r => 2 * r / 8 * (NB * NB) + 2 * r % 8 * (IB * NB + IB) + oI)
        NB (2 * IB) (2 * IB) (fun _ _ => true)
        (fun k i j => tri_inverse uplo diag (2 * IB)
          (fun r c => st.a (k / gridX * sA + 2 * (k % gridX) * (IB * lda + IB)
            + oA + c * lda + r)) i j)
        b w (b * sI + w) rfl hgrid hb hw rfl hbase hbound]
    rw [writeRegion_slice st'.invA (1 * gridX) 1 gridX sI
        (fun k => k / gridX * sI + 2 * (k % gridX) / 8 * (NB * NB)
          + 2 * (k % gridX) % 8 * (IB * NB + IB) + oI)
        (fun r => 2 * r / 8 * (NB * NB) + 2 * r % 8 * (IB * NB + IB) + oI)
        NB (2 * IB) (2 * IB) (fun _ _ => true)
        (fun k i j => tri_inverse uplo diag (2 * IB)
          (fun r c => st'.a (k / gridX * sA + 2 * (k % gridX) * (IB * lda + IB)
            + oA + c * lda + r)) i j)
        0 w w rfl hgrid Nat.one_pos hw (by ring) hbase hbound]
    apply writeRegion_congr
    · omega
    · show st.invA (b * sI + w) = st'.invA (0 * sI + w)
      rw [show (0 : ℕ) * sI + w = w from by ring]
      exact hI w hw
    · intro r hr ii hii jj hjj
      refine congrArg (fun f => tri_inverse uplo diag (2 * IB) f ii jj)
        (funext fun rr => funext fun cc => ?_)
      have e1 : (b * gridX + r) / gridX = b := colrow_div gridX b r hr
      have e2 : (b * gridX + r) % gridX = r := colrow_mod gridX b r hr
      have e3 : (0 * gridX + r) / gridX = 0 := colrow_div gridX 0 r hr
      have e4 : (0 * gridX + r) % gridX = r := colrow_mod gridX 0 r hr
      have g1 : (b * gridX + r) / gridX * sA
            + 2 * ((b * gridX + r) % gridX) * (IB * lda + IB) + oA + cc * lda + rr
          = b * sA + (2 * r * (IB * lda + IB) + oA + cc * lda + rr) := by
        rw [e1, e2]; ring
      have g2 : (0 * gridX + r) / gridX * sA
            + 2 * ((0 * gridX + r) % gridX) * (IB * lda + IB) + oA + cc * lda + rr
          = 2 * r * (IB * lda + IB) + oA + cc * lda + rr := by
        rw [e3, e4]; ring
      rw [g1, g2]
      exact hA _

theorem stage_fill_slice (fu : rocblas_fill) (nn ld subStride off sI sA : ℕ)
    (st st' : GpuState) (subCount batch b : ℕ)
    (hb : b < batch) (hsc : 0 < subCount) (hld : nn ≤ ld)
    (hbound : ∀ r, r < subCount → ∀ jj, jj < nn → ∀ ii, ii < nn →
        r * subStride + off + jj * ld + ii < sI)
    (hR : SliceRel b sA sI st st') :
    SliceRel b sA sI (stage_fill fu nn ld subStride st off sI subCount batch)
      (stage_fill fu nn ld subStride st' off sI subCount 1) := by
  obtain ⟨hA, hI⟩ := hR
  constructor
  · exact hA
  · intro w hw
    have hbase : ∀ k : ℕ, k / subCount * sI + k % subCount * subStride + off
        = k / subCount * sI + (k % subCount * subStride + off) := fun k => by ring
    unfold stage_fill
    dsimp only
    rw [writeRegion_slice st.invA (batch * subCount) batch subCount sI
        (fun k => k / subCount * sI + k % subCount * subStride + off)
        (fun r => r * subStride + off) ld nn nn
        (fun i j => match fu with
          | rocblas_fill.upper => decide (i < j)
          | rocblas_fill.lower => decide (j < i))
        (fun _ _ _ => 0) b w (b * sI + w) rfl hsc hb hw rfl hbase hbound]
    rw [writeRegion_slice st'.invA (1 * subCount) 1 subCount sI
        (fun k => k / subCount * sI + k % subCount * subStride + off)
        (fun r => r * subStride + off) ld nn nn
        (fun i j => match fu with
          | rocblas_fill.upper => decide (i < j)
          | rocblas_fill.lower => decide (j < i))
        (fun _ _ _ => 0) 0 w w rfl hsc Nat.one_pos hw (by ring) hbase hbound]
    apply writeRegion_congr
    · exact hld
    · show st.invA (b * sI + w) = st'.invA (0 * sI + w)
      rw [show (0 : ℕ) * sI + w = w from by ring]
      exact hI w hw
    · intro r hr ii hii jj hjj
      rfl

theorem rocblas_trtri_gemm_block_slice (NB S : ℕ) (e2 : rocblas_status)
    (st st' : GpuState) (lda sA oA oI sI ldC ssC batch sub b : ℕ)
    (XA X1 X2 X3 : ℕ)
    (hb : b < batch) (hsub : 0 < sub) (hSNB : S ≤ NB)
    (hstr : oI + sub * NB * NB + NB * NB ≤ sI)
    (hX1 : ∀ cc rr, cc < S → rr < S → X1 + cc * NB + rr < NB * NB)
    (hX2 : ∀ cc rr, cc < S → rr < S → X2 + cc * NB + rr < NB * NB)
    (hX3 : ∀ cc rr, cc < S → rr < S → X3 + cc * NB + rr < NB * NB)
    (hR : SliceRel b sA sI st st') :
    SliceRel b sA sI
      (rocblas_trtri_gemm_block rocblas_status.success e2 S S st lda sA (NB * lda + NB)
        NB sI (NB * NB) ldC 0 ssC batch sub
        (oA + XA) (oI + X1) (oI + X2) (oI + X3) 0).2.1
      (rocblas_trtri_gemm_block rocblas_status.success e2 S S st' lda sA (NB * lda + NB)
        NB sI (NB * NB) ldC 0 ssC 1 sub
        (oA + XA) (oI + X1) (oI + X2) (oI + X3) 0).2.1 := by
  obtain ⟨hA, hI⟩ := hR
  have hslack : ∀ r, r < sub → ∀ X, (∀ cc rr, cc < S → rr < S → X + cc * NB + rr < NB * NB)
      → ∀ cc rr, cc < S → rr < S → r * (NB * NB) + (oI + X) + cc * NB + rr < sI := by
    intro r hr X hX cc rr hcc hrr
    have h1 : X + cc * NB + rr < NB * NB := hX cc rr hcc hrr
    have h6 : (r + 1) * (NB * NB) ≤ sub * (NB * NB) :=
      Nat.mul_le_mul_right _ (by omega)
    have h7 : (r + 1) * (NB * NB) = r * (NB * NB) + NB * NB := by ring
    have h8 : sub * (NB * NB) = sub * NB * NB := by ring
    omega
  unfold rocblas_trtri_gemm_block
  dsimp only
  rw [if_neg (by simp), if_neg (by simp)]
  dsimp only
  constructor
  · exact hA
  · intro w hw
    have hbase : ∀ k : ℕ, k / sub * sI + k % sub * (NB * NB) + (oI + X3)
        = k / sub * sI + (k % sub * (NB * NB) + (oI + X3)) := fun k => by ring
    have hbound : ∀ r, r < sub → ∀ jj, jj < S → ∀ ii, ii < S →
        r * (NB * NB) + (oI + X3) + jj * NB + ii < sI := by
      intro r hr jj hjj ii hii
      exact hslack r hr X3 hX3 jj ii hjj hii
    dsimp only
    rw [writeRegion_slice st.invA (batch * sub) batch sub sI
        (fun k => k / sub * sI + k % sub * (NB * NB) + (oI + X3))
        (fun r => r * (NB * NB) + (oI + X3)) NB S S (fun _ _ => true)
        (fun k i j => gemm_dest_val S S
          (fun r_ c_ => st.invA (k / sub * sI + k % sub * (NB * NB) + (oI + X2)
            + c_ * NB + r_))
          (fun r_ c_ => st.a (k / sub * sA + k % sub * (NB * lda + NB) + (oA + XA)
            + c_ * lda + r_))
          (fun r_ c_ => st.invA (k / sub * sI + k % sub * (NB * NB) + (oI + X1)
            + c_ * NB + r_)) i j)
        b w (b * sI + w) rfl hsub hb hw rfl hbase hbound]
    rw [writeRegion_slice st'.invA (1 * sub) 1 sub sI
        (fun k => k / sub * sI + k % sub * (NB * NB) + (oI + X3))
        (fun r => r * (NB * NB) + (oI + X3)) NB S S (fun _ _ => true)
        (fun k i j => gemm_dest_val S S
          (fun r_ c_ => st'.invA (k / sub * sI + k % sub * (NB * NB) + (oI + X2)
            + c_ * NB + r_))
          (fun r_ c_ => st'.a (k / sub * sA + k % sub * (NB * lda + NB) + (oA + XA)
            + c_ * lda + r_))
          (fun r_ c_ => st'.invA (k / sub * sI + k % sub * (NB * NB) + (oI + X1)
            + c_ * NB + r_)) i j)
        0 w w rfl hsub Nat.one_pos hw (by ring) hbase hbound]
    apply writeRegion_congr
    · exact hSNB
    · show st.invA (b * sI + w) = st'.invA (0 * sI + w)
      rw [show (0 : ℕ) * sI + w = w from by ring]
      exact hI w hw
    · intro r hr ii hii jj hjj
      have e1 : (b * sub + r) / sub = b := colrow_div sub b r hr
      have e2 : (b * sub + r) % sub = r := colrow_mod sub b r hr
      have e3 : (0 * sub + r) / sub = 0 := colrow_div sub 0 r hr
      have e4 : (0 * sub + r) % sub = r := colrow_mod sub 0 r hr
      refine gemm_dest_val_congr S ii jj
        (fun r_ c_ => st.invA ((b * sub + r) / sub * sI + (b * sub + r) % sub * (NB * NB)
          + (oI + X2) + c_ * NB + r_))
        (fun r_ c_ => st'.invA ((0 * sub + r) / sub * sI + (0 * sub + r) % sub * (NB * NB)
          + (oI + X2) + c_ * NB + r_))
        (fun r_ c_ => st.a ((b * sub + r) / sub * sA + (b * sub + r) % sub * (NB * lda + NB)
          + (oA + XA) + c_ * lda + r_))
        (fun r_ c_ => st'.a ((0 * sub + r) / sub * sA + (0 * sub + r) % sub * (NB * lda + NB)
          + (oA + XA) + c_ * lda + r_))
        (fun r_ c_ => st.invA ((b * sub + r) / sub * sI + (b * sub + r) % sub * (NB * NB)
          + (oI + X1) + c_ * NB + r_))
        (fun r_ c_ => st'.invA ((0 * sub + r) / sub * sI + (0 * sub + r) % sub * (NB * NB)
          + (oI + X1) + c_ * NB + r_))
        ?_ ?_ ?_
      · intro l hl
        have hy : r * (NB * NB) + (oI + X2) + l * NB + ii < sI :=
          hslack r hr X2 hX2 l ii hl hii
        have g1 : (b * sub + r) / sub * sI + (b * sub + r) % sub * (NB * NB)
              + (oI + X2) + l * NB + ii
            = b * sI + (r * (NB * NB) + (oI + X2) + l * NB + ii) := by
          rw [e1, e2]; ring
        have g2 : (0 * sub + r) / sub * sI + (0 * sub + r) % sub * (NB * NB)
              + (oI + X2) + l * NB + ii
            = r * (NB * NB) + (oI + X2) + l * NB + ii := by
          rw [e3, e4]; ring
        simp only []
        rw [g1, g2]
        exact hI _ hy
      · intro l p hl hp
        have g1 : (b * sub + r) / sub * sA + (b * sub + r) % sub * (NB * lda + NB)
              + (oA + XA) + p * lda + l
            = b * sA + (r * (NB * lda + NB) + (oA + XA) + p * lda + l) := by
          rw [e1, e2]; ring
        have g2 : (0 * sub + r) / sub * sA + (0 * sub + r) % sub * (NB * lda + NB)
              + (oA + XA) + p * lda + l
            = r * (NB * lda + NB) + (oA + XA) + p * lda + l := by
          rw [e3, e4]; ring
        simp only []
        rw [g1, g2]
        exact hA _
      · intro p hp
        have hy : r * (NB * NB) + (oI + X1) + jj * NB + p < sI :=
          hslack r hr X1 hX1 jj p hjj hp
        have g1 : (b * sub + r) / sub * sI + (b * sub + r) % sub * (NB * NB)
              + (oI + X1) + jj * NB + p
            = b * sI + (r * (NB * NB) + (oI + X1) + jj * NB + p) := by
          rw [e1, e2]; ring
        have g2 : (0 * sub + r) / sub * sI + (0 * sub + r) % sub * (NB * NB)
              + (oI + X1) + jj * NB + p
            = r * (NB * NB) + (oI + X1) + jj * NB + p := by
          rw [e3, e4]; ring
        simp only []
        rw [g1, g2]
        exact hI _ hy

theorem rocblas_internal_trtri_template_slice (e : rocblas_status)
    (uplo : rocblas_fill) (diag : rocblas_diagonal) (nn NB : ℕ)
    (st st' : GpuState) (oA2 lda sA oI2 sI batch b : ℕ)
    (hb : b < batch) (hnn : nn ≤ NB) (hoI2 : oI2 + NB * NB ≤ sI)
    (hR : SliceRel b sA sI st st') :
    SliceRel b sA sI
      (rocblas_internal_trtri_template e uplo diag nn st oA2 lda sA oI2 NB sI batch).2.1
      (rocblas_internal_trtri_template e uplo diag nn st' oA2 lda sA oI2 NB sI 1).2.1 := by
  obtain ⟨hA, hI⟩ := hR
  constructor
  · exact hA
  · intro w hw
    have hbase : ∀ k : ℕ, k * sI + oI2 = k / 1 * sI + oI2 := fun k => by
      rw [Nat.div_one]
    have hbound : ∀ r, r < 1 → ∀ jj, jj < nn → ∀ ii, ii < nn →
        oI2 + jj * NB + ii < sI := by
      intro r hr jj hjj ii hii
      have h1 : jj * NB + ii < NB * NB := colrow_lt NB jj ii (by omega) (by omega)
      omega
    unfold rocblas_internal_trtri_template
    dsimp only
    rw [writeRegion_slice st.invA batch batch 1 sI
        (fun b_ => b_ * sI + oI2) (fun _ => oI2) NB nn nn
        (fun i j => match uplo with
          | rocblas_fill.lower => decide (j ≤ i)
          | rocblas_fill.upper => decide (i ≤ j))
        (fun b_ i j => tri_inverse uplo diag nn
          (fun r c => st.a (b_ * sA + oA2 + c * lda + r)) i j)
        b w (b * sI + w) (Nat.mul_one batch).symm Nat.one_pos hb hw rfl hbase hbound]
    rw [writeRegion_slice st'.invA 1 1 1 sI
        (fun b_ => b_ * sI + oI2) (fun _ => oI2) NB nn nn
        (fun i j => match uplo with
          | rocblas_fill.lower => decide (j ≤ i)
          | rocblas_fill.upper => decide (i ≤ j))
        (fun b_ i j => tri_inverse uplo diag nn
          (fun r c => st'.a (b_ * sA + oA2 + c * lda + r)) i j)
        0 w w (Nat.mul_one 1).symm Nat.one_pos Nat.one_pos hw (by ring) hbase hbound]
    apply writeRegion_congr
    · exact hnn
    · show st.invA (b * sI + w) = st'.invA (0 * sI + w)
      rw [show (0 : ℕ) * sI + w = w from by ring]
      exact hI w hw
    · intro r hr ii hii jj hjj
      have hr0 : r = 0 := by omega
      subst hr0
      refine congrArg (fun f => tri_inverse uplo diag nn f ii jj)
        (funext fun rr => funext fun cc => ?_)
      have g1 : (b * 1 + 0) * sA + oA2 + cc * lda + rr
          = b * sA + (oA2 + cc * lda + rr) := by ring
      have g2 : (0 * 1 + 0) * sA + oA2 + cc * lda + rr
          = oA2 + cc * lda + rr := by ring
      rw [g1, g2]
      exact hA _

theorem intile_bound (NB co ro cc rr : ℕ) (hc : co + cc < NB) (hr : ro + rr < NB) :
    co * NB + ro + cc * NB + rr < NB * NB := by
  have h : co * NB + ro + cc * NB + rr = (co + cc) * NB + (ro + rr) := by ring
  rw [h]
  exact colrow_lt NB (co + cc) (ro + rr) hr hc

theorem trsm_gemm_offset_invA_bounds (IB NB : ℕ) (hNB : NB = 8 * IB) (hIB : 0 < IB)
    (uplo : rocblas_fill) (lv : ℕ) (hlv : lv < 3) :
    (∀ cc rr, cc < trsm_gemm_size IB lv → rr < trsm_gemm_size IB lv →
        trsm_gemm_offset_invA1 uplo IB NB lv + cc * NB + rr < NB * NB)
    ∧ (∀ cc rr, cc < trsm_gemm_size IB lv → rr < trsm_gemm_size IB lv →
        trsm_gemm_offset_invA2 uplo IB NB lv + cc * NB + rr < NB * NB)
    ∧ (∀ cc rr, cc < trsm_gemm_size IB lv → rr < trsm_gemm_size IB lv →
        trsm_gemm_offset_invA3 uplo IB NB lv + cc * NB + rr < NB * NB) := by
  obtain ⟨hgS, hS⟩ := trsm_level_bounds IB NB hNB hIB lv hlv
  cases uplo
  case lower =>
    obtain ⟨-, h1, h2, h3⟩ := trsm_gemm_offsets_lower IB NB 0 lv hlv
    refine ⟨fun cc rr hcc hrr => ?_, fun cc rr hcc hrr => ?_, fun cc rr hcc hrr => ?_⟩
    · rw [h1]
      exact intile_bound NB _ _ cc rr (by omega) (by omega)
    · rw [h2]
      exact intile_bound NB _ _ cc rr (by omega) (by omega)
    · rw [h3]
      exact intile_bound NB _ _ cc rr (by omega) (by omega)
  case upper =>
    obtain ⟨-, h1, h2, h3⟩ := trsm_gemm_offsets_upper IB NB 0 lv hlv
    refine ⟨fun cc rr hcc hrr => ?_, fun cc rr hcc hrr => ?_, fun cc rr hcc hrr => ?_⟩
    · rw [h1]
      exact intile_bound NB _ _ cc rr (by omega) (by omega)
    · rw [h2]
      exact intile_bound NB _ _ cc rr (by omega) (by omega)
    · rw [h3]
      exact intile_bound NB _ _ cc rr (by omega) (by omega)

theorem trsm_remainder_slice (NB : ℕ) (env : ℕ → rocblas_status)
    (uplo : rocblas_fill) (diag : rocblas_diagonal) (n : ℕ)
    (oA lda sA oI sI batch b : ℕ) (st st' : GpuState) (ops ops' : List TrsmOp)
    (hNB0 : 0 < NB) (hb : b < batch)
    (henv : ∀ k, env k = rocblas_status.success)
    (hstr : oI + n / NB * NB * NB + NB * NB ≤ sI)
    (hR : SliceRel b sA sI st st') :
    SliceRel b sA sI
      (trsm_remainder NB env uplo diag n oA lda sA oI sI batch st ops).2.1
      (trsm_remainder NB env uplo diag n oA lda sA oI sI 1 st' ops').2.1 := by
  have hrem_le : n - n / NB * NB < NB := by
    have hdm := Nat.div_add_mod n NB
    have hcomm : NB * (n / NB) = n / NB * NB := Nat.mul_comm _ _
    have hmlt := Nat.mod_lt n hNB0
    omega
  have hsucc : ¬(rocblas_status.success ≠ rocblas_status.success) := by simp
  unfold trsm_remainder
  dsimp only
  by_cases hrem : n - n / NB * NB = 0
  · rw [if_pos hrem, if_pos hrem]
    exact hR
  · rw [if_neg hrem, if_neg hrem]
    rw [henv 8]
    rw [if_neg hsucc, if_neg hsucc]
    rw [henv 9]
    rw [rocblas_internal_trtri_template_status, rocblas_internal_trtri_template_status]
    rw [if_neg hsucc, if_neg hsucc]
    dsimp only
    have hbound : ∀ r, r < 1 → ∀ jj, jj < n - n / NB * NB → ∀ ii, ii < n - n / NB * NB →
        r * 0 + (n / NB * NB * NB + oI) + jj * NB + ii < sI := by
      intro r hr jj hjj ii hii
      have h1 : jj * NB + ii < NB * NB := colrow_lt NB jj ii (by omega) (by omega)
      have h2 : r * 0 = 0 := by ring
      omega
    have R6 := stage_fill_slice
      (match uplo with
        | rocblas_fill.lower => rocblas_fill.upper
        | rocblas_fill.upper => rocblas_fill.lower)
      (n - n / NB * NB) NB 0 (n / NB * NB * NB + oI) sI sA st st' 1 batch b
      hb Nat.one_pos (by omega) hbound hR
    exact rocblas_internal_trtri_template_slice rocblas_status.success uplo diag
      (n - n / NB * NB) NB _ _ (n / NB * NB * lda + n / NB * NB + oA) lda sA
      (n / NB * NB * NB + oI) sI batch b hb (by omega) (by omega) R6

set_option maxHeartbeats 2000000 in
/-- C8: batch independence of `rocblas_trtri_trsm_template` under an
all-success environment.  The invA slice written for batch entry `b` is fully
determined by that entry's view of the input buffers: if the multi-batch state
agrees, from entry `b`'s batch bases onward, with a single-batch state (A at
every offset past the base, invA below the batch stride), then after the call
entry `b`'s invA slice equals the single-batch call's invA slice at every
in-slice offset.  In particular, a call on batch_count identical copies of one
matrix writes, for every batch entry, inverse tiles equal to the single-batch
result (see the witness, which runs two identical copies). -/
theorem C8_batch_independence (NB IB : ℕ) (env : ℕ → rocblas_status)
    (uplo : rocblas_fill) (diag : rocblas_diagonal) (n : ℕ) (st st' : GpuState)
    (oA lda sA oI sI batch b w : ℕ)
    (hNB : NB = 8 * IB) (hIB : 0 < IB)
    (henv : ∀ k, env k = rocblas_status.success)
    (hstr : oI + n / NB * NB * NB + NB * NB ≤ sI)
    (hb : b < batch) (hw : w < sI)
    (hA : ∀ x, st.a (b * sA + x) = st'.a x)
    (hI : ∀ y, y < sI → st.invA (b * sI + y) = st'.invA y) :
    (rocblas_trtri_trsm_template NB env uplo diag n st oA lda sA oI sI batch).2.1.invA
        (b * sI + w)
      = (rocblas_trtri_trsm_template NB env uplo diag n st' oA lda sA oI sI 1).2.1.invA
        w := by
  have hR0 : SliceRel b sA sI st st' := ⟨hA, hI⟩
  have hNB0 : 0 < NB := by omega
  have hsucc : ¬(rocblas_status.success ≠ rocblas_status.success) := by simp
  unfold rocblas_trtri_trsm_template
  dsimp only
  by_cases hn : n = 0
  · rw [if_pos hn, if_pos hn]
    exact hI w hw
  · rw [if_neg hn, if_neg hn]
    by_cases hsub : n / NB = 0
    · rw [if_pos hsub, if_pos hsub]
      exact (And.right (trsm_remainder_slice NB env uplo diag n oA lda sA oI sI batch b
        st st' [] [] hNB0 hb henv hstr hR0)) w hw
    · rw [if_neg hsub, if_neg hsub]
      rw [henv 0, if_neg hsucc, if_neg hsucc, henv 1, if_neg hsucc, if_neg hsucc]
      rw [henv 2, henv 3, henv 4, henv 5, henv 6, henv 7]
      have hNB' : NB = 8 * (NB / 8) := by omega
      have hIB' : 0 < NB / 8 := by omega
      have hpos : 0 < n / NB := Nat.pos_of_ne_zero hsub
      set fu : rocblas_fill := (match uplo with
        | rocblas_fill.lower => rocblas_fill.upper
        | rocblas_fill.upper => rocblas_fill.lower) with hfu
      have R1 := stage_trtri_kernel_slice NB (NB / 8) (n / NB) uplo diag st st'
        oA lda sA oI sI (n / NB * 8 / 2) batch b hNB' hb (by omega) (by omega) hstr hR0
      have hbound2 : ∀ r, r < n / NB → ∀ jj, jj < NB → ∀ ii, ii < NB →
          r * (NB * NB) + oI + jj * NB + ii < sI := by
        intro r hr jj hjj ii hii
        have h1 : jj * NB + ii < NB * NB := colrow_lt NB jj ii hii hjj
        have h6 : (r + 1) * (NB * NB) ≤ n / NB * (NB * NB) :=
          Nat.mul_le_mul_right _ (by omega)
        have h7 : (r + 1) * (NB * NB) = r * (NB * NB) + NB * NB := by ring
        have h8 : n / NB * (NB * NB) = n / NB * NB * NB := by ring
        omega
      have R2 := stage_fill_slice fu
        NB NB (NB * NB) oI sI sA _ _ (n / NB) batch b hb (by omega) (le_refl NB)
        hbound2 R1
      obtain ⟨hS0, hSz0⟩ := trsm_level_bounds (NB / 8) NB hNB' hIB' 0 (by omega)
      obtain ⟨hS1, hSz1⟩ := trsm_level_bounds (NB / 8) NB hNB' hIB' 1 (by omega)
      obtain ⟨hS2, hSz2⟩ := trsm_level_bounds (NB / 8) NB hNB' hIB' 2 (by omega)
      obtain ⟨hX10, hX20, hX30⟩ := trsm_gemm_offset_invA_bounds (NB / 8) NB hNB' hIB'
        uplo 0 (by omega)
      obtain ⟨hX11, hX21, hX31⟩ := trsm_gemm_offset_invA_bounds (NB / 8) NB hNB' hIB'
        uplo 1 (by omega)
      obtain ⟨hX12, hX22, hX32⟩ := trsm_gemm_offset_invA_bounds (NB / 8) NB hNB' hIB'
        uplo 2 (by omega)
      have R3 := rocblas_trtri_gemm_block_slice NB (trsm_gemm_size (NB / 8) 0)
        rocblas_status.success _ _ lda sA oA oI sI (NB / 8 * 4)
        (NB / 8 * 4 * (NB / 8 * 4)) batch (n / NB) b
        (trsm_gemm_offset_A uplo (NB / 8) lda 0)
        (trsm_gemm_offset_invA1 uplo (NB / 8) NB 0)
        (trsm_gemm_offset_invA2 uplo (NB / 8) NB 0)
        (trsm_gemm_offset_invA3 uplo (NB / 8) NB 0)
        hb hpos (by omega) hstr hX10 hX20 hX30 R2
      have R4 := rocblas_trtri_gemm_block_slice NB (trsm_gemm_size (NB / 8) 1)
        rocblas_status.success _ _ lda sA oA oI sI (NB / 8 * 4)
        (NB / 8 * 4 * (NB / 8 * 4)) batch (n / NB) b
        (trsm_gemm_offset_A uplo (NB / 8) lda 1)
        (trsm_gemm_offset_invA1 uplo (NB / 8) NB 1)
        (trsm_gemm_offset_invA2 uplo (NB / 8) NB 1)
        (trsm_gemm_offset_invA3 uplo (NB / 8) NB 1)
        hb hpos (by omega) hstr hX11 hX21 hX31 R3
      have R5 := rocblas_trtri_gemm_block_slice NB (trsm_gemm_size (NB / 8) 2)
        rocblas_status.success _ _ lda sA oA oI sI (NB / 8 * 4)
        (NB / 8 * 4 * (NB / 8 * 4)) batch (n / NB) b
        (trsm_gemm_offset_A uplo (NB / 8) lda 2)
        (trsm_gemm_offset_invA1 uplo (NB / 8) NB 2)
        (trsm_gemm_offset_invA2 uplo (NB / 8) NB 2)
        (trsm_gemm_offset_invA3 uplo (NB / 8) NB 2)
        hb hpos (by omega) hstr hX12 hX22 hX32 R4
      exact (And.right (trsm_remainder_slice NB env uplo diag n oA lda sA oI sI batch b
        _ _ _ _ hNB0 hb henv hstr R5)) w hw

/-- Device state holding identical copies of the 8-by-8 lower sample matrix in
every batch entry: A repeats with period 64 (lda = 8, diagonal 2, strictly
lower part 1), invA holds the sentinel 99 everywhere, C_tmp holds 77. -/
def periodicLowerState : GpuState :=
  ⟨fun x => if x % 64 % 8 = x % 64 / 8 then 2
    else if x % 64 / 8 < x % 64 % 8 then 1 else 0,
   fun _ => 99, fun _ => 77⟩

theorem C8_batch_independence_witness :
    (rocblas_trtri_trsm_template 8 envAllSuccess rocblas_fill.lower
        rocblas_diagonal.non_unit 8 periodicLowerState 0 8 64 0 128 2).2.1.invA
        (1 * 128 + 5)
      = (rocblas_trtri_trsm_template 8 envAllSuccess rocblas_fill.lower
        rocblas_diagonal.non_unit 8 periodicLowerState 0 8 64 0 128 1).2.1.invA 5 :=
  C8_batch_independence 8 1 envAllSuccess rocblas_fill.lower rocblas_diagonal.non_unit 8
    periodicLowerState periodicLowerState 0 8 64 0 128 2 1 5 (by decide) (by decide)
    (fun _ => rfl) (by decide) (by decide) (by decide)
    (fun x => by simp only [periodicLowerState, one_mul, Nat.add_mod_left])
    (fun y hy => rfl)

end RocblasTrtriTrsm
